import Mathlib

/-!
Verification of the ytdlp-nfo-server download manager core.

The Go source is shallowly embedded: pure fragments become Lean functions,
the stateful scheduler becomes an explicit transition system.  Machine
integers are modelled by `Nat`/`Int` (the Go counters never overflow in the
claims considered), `float64` progress values by `Rat`, `time.Time` by `Nat`
timestamps, and `time.Duration` by nanosecond counts in `Nat`.
-/

set_option maxHeartbeats 1000000

namespace YtdlpNfo

/-- Job status values (downloader.go: `JobStatus` constants). -/
inductive JStatus
  | pending
  | queued
  | running
  | retrying
  | completed
  | failed
deriving DecidableEq

/-- An SSE event: a type tag ("message", "progress", "status", "done") and a
data payload (downloader.go: `SSEEvent`). -/
structure Ev where
  type : String
  data : String
deriving DecidableEq

/-! ## Output parser (downloader.go: `scanCRLF`, and the scanner loop of
`executeDownload`) -/

/-- The index-scanning loop inside `scanCRLF`: walks the data looking for the
first `\n` or `\r` (with `\r\n` lookahead), returning the token length and the
total advance, or `none` when no separator occurs.  Mirrors the Go `for` loop
including the order of the `'\n'` and `'\r'` tests. -/
def scanFind : List Char → Option (Nat × Nat)
  | [] => none
  | c :: rest =>
    if c = '\n' then some (0, 1)
    else if c = '\r' then
      match rest with
      | '\n' :: _ => some (0, 2)
      | _ => some (0, 1)
    else (scanFind rest).map fun p => (p.1 + 1, p.2 + 1)

/-- `scanCRLF` as a `bufio.SplitFunc`: given buffered data and the at-EOF flag,
returns `some (advance, token)` or `none`.  `none` stands for both Go results
that produce no token (`0, nil, nil` requesting more data, and the final stop
at EOF on empty data). -/
def scanCRLF (data : List Char) (atEOF : Bool) : Option (Nat × List Char) :=
  if atEOF ∧ data = [] then none
  else
    match scanFind data with
    | some (i, adv) => some (adv, data.take i)
    | none => if atEOF then some (data.length, data) else none

/-- The `bufio.Scanner` driver applied to a fully buffered input (the whole
subprocess output), so every call to the split function has `atEOF = true`:
repeatedly take the next token until the split function stops. -/
def scanTokens (data : List Char) : List (List Char) :=
  match h : scanCRLF data true with
  | none => []
  | some (adv, tok) => tok :: scanTokens (data.drop adv)
termination_by data.length
decreasing_by
  have hb : ∀ (l : List Char) i a, scanFind l = some (i, a) → 1 ≤ a ∧ a ≤ l.length := by
    intro l
    induction l with
    | nil => intro i a hia; simp [scanFind] at hia
    | cons c rest ih =>
      intro i a hia
      by_cases h1 : c = '\n'
      · subst h1; simp [scanFind] at hia
        simp
        omega
      · by_cases h2 : c = '\r'
        · subst h2
          simp [scanFind] at hia
          cases rest with
          | nil =>
            simp at hia
            simp
            omega
          | cons d rest2 =>
            by_cases h3 : d = '\n'
            · subst h3
              simp at hia
              simp
              omega
            · simp [h3] at hia
              simp
              omega
        · simp [scanFind, h1, h2] at hia
          obtain ⟨i0, a0, hia0, _, ha⟩ := hia
          have := ih i0 a0 hia0
          simp
          omega
  simp only [scanCRLF] at h
  split at h
  · exact absurd h (by simp)
  · rename_i hne
    have hlen : 1 ≤ data.length := by
      cases data with
      | nil => exact absurd (by simp) hne
      | cons c rest => simp
    cases hf : scanFind data with
    | none =>
      rw [hf] at h
      simp at h
      obtain ⟨hadv, _⟩ := h
      simp [← hadv]
      omega
    | some p =>
      obtain ⟨i0, a0⟩ := p
      rw [hf] at h
      simp at h
      obtain ⟨hadv, _⟩ := h
      have h1 := hb data i0 a0 hf
      simp [← hadv]
      omega

/-- Whitespace trimming of both ends of a segment, as `strings.TrimSpace` is
applied in `executeDownload` to each scanned token. -/
def trimChars (l : List Char) : List Char :=
  ((l.dropWhile fun c => c.isWhitespace).reverse.dropWhile fun c => c.isWhitespace).reverse

/-- Trim every segment and drop the segments that are empty after trimming,
as `executeDownload` does before appending. -/
def emitFilter (segs : List (List Char)) : List (List Char) :=
  (segs.map trimChars).filter fun l => l ≠ []

/-- The lines appended to a job by `executeDownload`'s scanner loop: every
token from the split, trimmed, with segments that are empty after trimming
dropped. -/
def emittedLines (data : List Char) : List (List Char) :=
  emitFilter (scanTokens data)

/-- Modelled from the spec's words for the refinement claim about the output
parser: split the byte stream into segments at every occurrence of `\n`, `\r`
or `\r\n`, the two-byte sequence `\r\n` counting as a single separator
(preferred over a lone `\r`). -/
def splitSpec : List Char → List (List Char)
  | [] => [[]]
  | [c] => if c = '\n' ∨ c = '\r' then [[], []] else [[c]]
  | c :: d :: rest =>
    if c = '\r' ∧ d = '\n' then [] :: splitSpec rest
    else if c = '\n' ∨ c = '\r' then [] :: splitSpec (d :: rest)
    else
      match splitSpec (d :: rest) with
      | [] => [[c]]
      | s :: ss => (c :: s) :: ss

/-- From the spec's words: the segments that survive, namely each segment
trimmed, with segments empty after trimming dropped. -/
def splitSpecEmitted (data : List Char) : List (List Char) :=
  emitFilter (splitSpec data)

/-! ## Progress extraction (downloader.go: `progressRegex` and `appendLine`) -/

/-- The literal part of `progressRegex`. -/
def litDownload : List Char := "[download]".data

/-- Attempt to match the regular expression `\[download\]\s+([\d.]+)%` at the
head of `l`, returning the capture group.  Because `%` is in neither `\s` nor
`[\d.]`, greedy matching with backtracking succeeds exactly when the maximal
runs are followed by `%`. -/
def matchProgressAt (l : List Char) : Option (List Char) :=
  if litDownload.isPrefixOf l then
    let r1 := l.drop litDownload.length
    let ws := r1.takeWhile fun c => c.isWhitespace
    if ws = [] then none
    else
      let r2 := r1.drop ws.length
      let run := r2.takeWhile fun c => c.isDigit || c = '.'
      if run = [] then none
      else
        match r2.drop run.length with
        | '%' :: _ => some run
        | _ => none
  else none

/-- `progressRegex.FindStringSubmatch`: the capture group of the first match,
scanning start positions left to right. -/
def extractProgress : List Char → Option (List Char)
  | [] => none
  | c :: rest =>
    match matchProgressAt (c :: rest) with
    | some run => some run
    | none => extractProgress rest

/-- Numeric value of a decimal digit character. -/
def digitVal (c : Char) : Nat := c.toNat - 48

/-- Value of a digit string read in base 10. -/
def natOfDigits (l : List Char) : Nat := l.foldl (fun acc c => acc * 10 + digitVal c) 0

/-- `strconv.ParseFloat` restricted to the strings `[\d.]+` can produce:
plain decimal notation, at most one dot, at least one digit. -/
def parseDec (s : List Char) : Option Rat :=
  let ip := s.takeWhile fun c => c.isDigit
  match s.drop ip.length with
  | [] => if ip = [] then none else some (mkRat (Int.ofNat (natOfDigits ip)) 1)
  | '.' :: fp =>
    if (fp.all fun c => c.isDigit) ∧ (ip ≠ [] ∨ fp ≠ []) then
      some (mkRat (Int.ofNat (natOfDigits ip * 10 ^ fp.length + natOfDigits fp))
        (10 ^ fp.length))
    else none
  | _ => none

/-! ## The Job record and `appendLine` -/

/-- A job's mutable fields relevant to the per-job claims (downloader.go:
`Job`).  `lastMsg` is a ghost field recording the failure message of the most
recent attempt; it corresponds to no Go field and is written only by the
transition system, never read by the embedded code. -/
structure JobRec where
  status : JStatus
  doneAt : Option Nat
  error : String
  progress : Rat
  retryCount : Nat
  maxRetries : Nat
  output : List String
  lastMsg : String
deriving DecidableEq

/-- downloader.go: `maxOutputLines`. -/
def maxOutputLines : Nat := 500

/-- The output-buffer cap in `appendLine`: keep only the last 500 lines. -/
def capOut (l : List String) : List String :=
  if l.length > maxOutputLines then l.drop (l.length - maxOutputLines) else l

/-- downloader.go: `appendLine`.  Appends the line (with cap), extracts a
progress percentage, updating `Progress` and broadcasting a `progress` event
on a successful match-and-parse, then broadcasts a `message` event.  The
returned list is the sequence of broadcast events. -/
def appendLine (j : JobRec) (line : String) : JobRec × List Ev :=
  let out := capOut (j.output ++ [line])
  match extractProgress line.data with
  | some run =>
    match parseDec run with
    | some pct =>
      ({ j with output := out, progress := pct },
       [⟨"progress", String.mk run⟩, ⟨"message", line⟩])
    | none => ({ j with output := out }, [⟨"message", line⟩])
  | none => ({ j with output := out }, [⟨"message", line⟩])

/-- The concrete progress line of the idempotence claim. -/
def dlLine : String := "[download]  42.5%"

/-! ## Retry arithmetic and the failure branch of `runDownload` -/

/-- The backoff loop of `runDownload`: `backoff := 10 * time.Second; for i :=
1; i < attempt; i++ { backoff *= 3 }`, in nanoseconds. -/
def timesThree : Nat → Nat → Nat
  | 0, b => b
  | n + 1, b => timesThree n (b * 3)

/-- Backoff before the retry following failed attempt number `attempt`,
in nanoseconds. -/
def backoffNs (attempt : Nat) : Nat := timesThree (attempt - 1) 10000000000

/-- Decimal digit character, as produced by `fmt.Sprintf("%d", ·)`. -/
def digitCh : Nat → Char
  | 0 => '0'
  | 1 => '1'
  | 2 => '2'
  | 3 => '3'
  | 4 => '4'
  | 5 => '5'
  | 6 => '6'
  | 7 => '7'
  | 8 => '8'
  | _ => '9'

/-- Decimal notation of a natural number (`fmt.Sprintf("%d", ·)`). -/
def natToChars (n : Nat) : List Char :=
  if n < 10 then [digitCh n]
  else natToChars (n / 10) ++ [digitCh (n % 10)]
decreasing_by exact Nat.div_lt_self (by omega) (by omega)

def natToStr (n : Nat) : String := String.mk (natToChars n)

/-- `time.Duration.String()` for whole-second durations of at least one
second, which is the only range the retry line ever formats: seconds, with
minutes and hours prepended as needed (for example `10s`, `1m30s`,
`2h1m30s`). -/
def fmtDuration (ns : Nat) : String :=
  let ts := ns / 1000000000
  let h := ts / 3600
  let m := ts / 60 % 60
  let sec := ts % 60
  (if h > 0 then natToStr h ++ "h" else "") ++
    (if h > 0 ∨ m > 0 then natToStr m ++ "m" else "") ++
    natToStr sec ++ "s"

/-- The synthetic output line `fmt.Sprintf("--- Retry %d/%d in %s ---",
attempt, maxRetries, backoff)`. -/
def retryLine (attempt maxRetries backoff : Nat) : String :=
  "--- Retry " ++ natToStr attempt ++ "/" ++ natToStr maxRetries ++ " in " ++
    fmtDuration backoff ++ " ---"

/-- The ordinary-failure branch of `runDownload` (after `executeDownload`
returns an error and the job still exists, shutdown not signalled): increment
`RetryCount`; if it reached `MaxRetries`, mark the job failed recording the
error text and completion time; otherwise mark it retrying with progress
reset, and append the synthetic retry line through `appendLine`.  Slot
bookkeeping lives in the scheduler model, not here. -/
def failStep (j : JobRec) (errMsg : String) (now : Nat) : JobRec :=
  let attempt := j.retryCount + 1
  let j1 := { j with retryCount := attempt }
  if attempt ≥ j1.maxRetries then
    { j1 with status := JStatus.failed, error := errMsg, doneAt := some now }
  else
    let j2 := { j1 with status := JStatus.retrying, progress := 0 }
    (appendLine j2 (retryLine attempt j2.maxRetries (backoffNs attempt))).1

/-! ## Per-job lifecycle transition system

One job as driven by `runDownload`, `RetryJob` and the dispatch paths.  The
`emitOutput` transition over-approximates the effect of attempt output on the
job (arbitrary new output and progress); the fields the invariants speak
about (`status`, `retryCount`, `maxRetries`, `error`) are exactly preserved
by `appendLine`, so the over-approximation is sound. -/

/-- A fresh job as created by `StartDownload`/`StartBulkDownload` (status
`pending` when dispatched at once, `queued` otherwise). -/
def jobInit (M : Nat) (st : JStatus) : JobRec :=
  { status := st, doneAt := none, error := "", progress := 0, retryCount := 0,
    maxRetries := M, output := [], lastMsg := "" }

/-- Transitions of a single job. -/
inductive JStep : JobRec → JobRec → Prop
  | start (j : JobRec)
      (h : j.status = JStatus.pending ∨ j.status = JStatus.queued ∨ j.status = JStatus.retrying) :
      JStep j { j with status := JStatus.running }
  | emitOutput (j : JobRec) (out : List String) (prog : Rat)
      (h : j.status = JStatus.running) :
      JStep j { j with output := out, progress := prog }
  | complete (j : JobRec) (now : Nat) (h : j.status = JStatus.running) :
      JStep j { j with status := JStatus.completed, doneAt := some now, progress := 100 }
  | fail (j : JobRec) (msg : String) (now : Nat) (h : j.status = JStatus.running) :
      JStep j { failStep j msg now with lastMsg := msg }
  | requeue (j : JobRec) (h : j.status = JStatus.retrying) :
      JStep j { j with status := JStatus.queued }
  | retryApiDispatch (j : JobRec) (h : j.status = JStatus.failed) :
      JStep j { j with status := JStatus.pending, error := "", doneAt := none,
                       progress := 0, retryCount := 0, output := [] }
  | retryApiQueue (j : JobRec) (h : j.status = JStatus.failed) :
      JStep j { j with status := JStatus.queued, error := "", doneAt := none,
                       progress := 0, retryCount := 0, output := [] }

/-- Reachability of a job state from a fresh job. -/
def JReach (M : Nat) (st0 : JStatus) : JobRec → Prop :=
  Relation.ReflTransGen JStep (jobInit M st0)

/-- The inductive invariant of the per-job lifecycle: the configured cap is
positive, `retryCount` never exceeds it and is strictly below it while the
job is not failed, the `error` field is empty unless the job is failed, and
a failed job records exactly `maxRetries` attempts with `error` holding the
most recent attempt's failure message. -/
def JInv (j : JobRec) : Prop :=
  1 ≤ j.maxRetries ∧
  j.retryCount ≤ j.maxRetries ∧
  (j.status ≠ JStatus.failed → j.retryCount < j.maxRetries ∧ j.error = "") ∧
  (j.status = JStatus.failed → j.retryCount = j.maxRetries ∧ j.error = j.lastMsg)

/-! ## Persistence (persist.go: `persistedJob`, `saveState`, `loadState`)

JSON encoding and decoding are treated as faithful: `saveState` produces the
in-memory `persistedState` value and `loadState` consumes it.  `time.Time` is
modelled by a `Nat` timestamp. -/

/-- persist.go: `persistedJob` — the persisted fields of a job.  The
in-memory `Job` carries exactly these fields plus runtime-only ones (mutex,
subscribers, cancel handle), so the same record stands for both sides of the
`jobToPersisted`/`persistedToJob` conversions. -/
structure PJob where
  id : String
  url : String
  status : JStatus
  createdAt : Nat
  doneAt : Option Nat
  error : String
  progress : Rat
  retryCount : Nat
  maxRetries : Nat
  output : List String
deriving DecidableEq

/-- persist.go: `persistedState`. -/
structure PState where
  nextId : Nat
  jobs : List PJob
deriving DecidableEq

/-- The manager fields touched by persistence; the `jobs` map is modelled as
a list in iteration order. -/
structure ManagerP where
  jobs : List PJob
  queue : List String
  nextId : Nat
deriving DecidableEq

/-- persist.go: `jobToPersisted` — a field-by-field copy. -/
def jobToPersisted (j : PJob) : PJob :=
  { id := j.id, url := j.url, status := j.status, createdAt := j.createdAt,
    doneAt := j.doneAt, error := j.error, progress := j.progress,
    retryCount := j.retryCount, maxRetries := j.maxRetries, output := j.output }

/-- persist.go: `persistedToJob` — a field-by-field copy. -/
def persistedToJob (p : PJob) : PJob :=
  { id := p.id, url := p.url, status := p.status, createdAt := p.createdAt,
    doneAt := p.doneAt, error := p.error, progress := p.progress,
    retryCount := p.retryCount, maxRetries := p.maxRetries, output := p.output }

/-- The `switch p.Status` test of `loadState`: terminal statuses restore
verbatim. -/
def isTerminal (s : JStatus) : Bool :=
  s = JStatus.completed ∨ s = JStatus.failed

/-- persist.go: `saveState` — snapshot `nextId` and every job in iteration
order. -/
def saveState (m : ManagerP) : PState :=
  { nextId := m.nextId, jobs := m.jobs.map jobToPersisted }

/-- The comparison `loadState` sorts re-queued jobs by. -/
def createdLe (a b : PJob) : Prop := a.createdAt ≤ b.createdAt

instance : DecidableRel createdLe := fun a b => Nat.decLe a.createdAt b.createdAt

instance : IsTotal PJob createdLe := ⟨fun a b => Nat.le_total a.createdAt b.createdAt⟩

instance : IsTrans PJob createdLe := ⟨fun _ _ _ => Nat.le_trans⟩

/-- persist.go: `loadState` — terminal jobs restore verbatim; every other
persisted job is coerced to `queued` with `progress = 0`, sorted by
`createdAt`, restored and enqueued in that order.  Go uses `sort.Slice`
with the strict `Before` comparator; `insertionSort` with `≤` produces a
sorted permutation of the same list, agreeing with it up to the order of
`createdAt` ties, which `sort.Slice` leaves unspecified anyway. -/
def loadState (st : PState) : ManagerP :=
  let requeue := ((st.jobs.filter fun p => !isTerminal p.status).map
    fun p => { p with status := JStatus.queued, progress := (0 : Rat) })
  let sorted := List.insertionSort createdLe requeue
  { jobs := (st.jobs.filter fun p => isTerminal p.status).map persistedToJob ++
      sorted.map persistedToJob,
    queue := sorted.map fun p => p.id,
    nextId := st.nextId }

/-! ## Admission (downloader.go: `StartDownload`) -/

/-- The fields of a job read or written by `StartDownload`. -/
structure SJob where
  id : String
  url : String
  status : JStatus
deriving DecidableEq

/-- The manager state as seen by `StartDownload`. -/
structure SubSt where
  jobs : List SJob
  queue : List String
  running : Int
  nextId : Nat
  maxConcurrent : Int
  shutdown : Bool
deriving DecidableEq

/-- downloader.go: `StartDownload`.  Returns the state after the call paired
with the result; on an error the state is returned unchanged, mirroring the
early `return nil, fmt.Errorf(...)` paths that precede every mutation. -/
def StartDownload (s : SubSt) (url : String) : SubSt × Except String SJob :=
  if s.shutdown then (s, Except.error "server is shutting down")
  else if s.jobs.any fun j => j.url = url ∧ j.status ≠ JStatus.completed then
    (s, Except.error "a download already exists for this URL")
  else
    let id := natToStr (s.nextId + 1)
    if s.running < s.maxConcurrent then
      let job : SJob := { id := id, url := url, status := JStatus.pending }
      ({ s with jobs := s.jobs ++ [job], running := s.running + 1,
                nextId := s.nextId + 1 },
       Except.ok job)
    else
      let job : SJob := { id := id, url := url, status := JStatus.queued }
      ({ s with jobs := s.jobs ++ [job], queue := s.queue ++ [id],
                nextId := s.nextId + 1 },
       Except.ok job)

/-! ## Scheduler transition system (downloader.go: `runDownload`,
`startNextQueued`, `DeleteJob`, `DeleteAllJobs`, the dispatch paths)

States carry the manager's `jobs` map (id and status only), the FIFO
`queue`, the `running` counter (an `Int`: the Go `int` can in fact go
negative, which is the crux of the concurrency-bound claim), and one entry
per in-flight `runDownload` goroutine with its control point:

* `starting`  — dispatched, before `broadcastStatus(StatusRunning)` at the
  loop head; holds a slot;
* `executing` — attempt under way (between the loop head and the handling of
  the attempt's outcome); holds a slot;
* `backoff`   — sleeping between attempts; the slot has been released.

Each transition is one critical section of the Go code.  Shutdown is not
modelled: it only disables transitions and cannot create running jobs. -/

/-- Task control points of an in-flight `runDownload`. -/
inductive TPhase
  | starting
  | executing
  | backoff
deriving DecidableEq

/-- Whether a task at this control point holds a concurrency slot. -/
def holdsSlot : TPhase → Bool
  | TPhase.backoff => false
  | _ => true

/-- Association-list update: replace the value at key `k`. -/
def updK {β : Type} (k : Nat) (v : β) (l : List (Nat × β)) : List (Nat × β) :=
  l.map fun p => if p.1 = k then (p.1, v) else p

/-- Association-list removal of key `k`. -/
def delK {β : Type} (k : Nat) (l : List (Nat × β)) : List (Nat × β) :=
  l.filter fun p => p.1 ≠ k

/-- Key membership (`_, ok := m.jobs[id]`). -/
def hasK {β : Type} (l : List (Nat × β)) (k : Nat) : Bool :=
  l.any fun p => p.1 = k

/-- Number of in-flight tasks holding a slot. -/
def slotCount (l : List (Nat × TPhase)) : Nat :=
  (l.filter fun t => holdsSlot t.2).length

/-- Scheduler state. -/
structure SchedState where
  jobs : List (Nat × JStatus)
  queue : List Nat
  running : Int
  tasks : List (Nat × TPhase)
  nextId : Nat
  maxConcurrent : Nat
deriving DecidableEq

/-- The queue-popping loop of `startNextQueued`: skip ids whose job was
deleted; dispatch the first surviving id (`running++`, spawn `runDownload`).
Returns the new queue, task list and running counter. -/
def popLoop (jobs : List (Nat × JStatus)) (tasks : List (Nat × TPhase)) (running : Int) :
    List Nat → List Nat × List (Nat × TPhase) × Int
  | [] => ([], tasks, running)
  | id :: rest =>
    if hasK jobs id then (rest, tasks ++ [(id, TPhase.starting)], running + 1)
    else popLoop jobs tasks running rest

/-- downloader.go: `startNextQueued` — `m.running--`, then pop-and-dispatch
the next queued job that still exists. -/
def startNextQueued (s : SchedState) : SchedState :=
  let r := popLoop s.jobs s.tasks (s.running - 1) s.queue
  { s with queue := r.1, tasks := r.2.1, running := r.2.2 }

/-- Number of jobs in the manager's map whose status is `running`. -/
def runningJobs (s : SchedState) : Nat :=
  (s.jobs.filter fun p => p.2 = JStatus.running).length

/-- One atomic step of the scheduler.  The parameter `strict` selects the
restricted system: when `strict = true`, `DeleteAllJobs` may fire only while
no attempt is in flight (no task holds a slot); when `strict = false` the
transition is unconstrained, as in the Go source. -/
inductive Step (strict : Bool) : SchedState → SchedState → Prop
  | submit_dispatch (s : SchedState) (h : s.running < (s.maxConcurrent : Int)) :
      Step strict s
        { s with jobs := s.jobs ++ [(s.nextId + 1, JStatus.pending)],
                 running := s.running + 1,
                 tasks := s.tasks ++ [(s.nextId + 1, TPhase.starting)],
                 nextId := s.nextId + 1 }
  | submit_queue (s : SchedState) (h : ¬ s.running < (s.maxConcurrent : Int)) :
      Step strict s
        { s with jobs := s.jobs ++ [(s.nextId + 1, JStatus.queued)],
                 queue := s.queue ++ [s.nextId + 1],
                 nextId := s.nextId + 1 }
  | retry_dispatch (s : SchedState) (id : Nat) (h : (id, JStatus.failed) ∈ s.jobs)
      (hr : s.running < (s.maxConcurrent : Int)) :
      Step strict s
        { s with jobs := updK id JStatus.pending s.jobs,
                 running := s.running + 1,
                 tasks := s.tasks ++ [(id, TPhase.starting)] }
  | retry_queue (s : SchedState) (id : Nat) (h : (id, JStatus.failed) ∈ s.jobs)
      (hr : ¬ s.running < (s.maxConcurrent : Int)) :
      Step strict s
        { s with jobs := updK id JStatus.queued s.jobs, queue := s.queue ++ [id] }
  | task_start (s : SchedState) (id : Nat) (ht : (id, TPhase.starting) ∈ s.tasks)
      (hj : hasK s.jobs id = true) :
      Step strict s
        { s with jobs := updK id JStatus.running s.jobs,
                 tasks := updK id TPhase.executing s.tasks }
  | task_gone_start (s : SchedState) (id : Nat) (ht : (id, TPhase.starting) ∈ s.tasks)
      (hj : hasK s.jobs id = false) :
      Step strict s (startNextQueued { s with tasks := delK id s.tasks })
  | task_complete (s : SchedState) (id : Nat) (ht : (id, TPhase.executing) ∈ s.tasks)
      (hj : hasK s.jobs id = true) :
      Step strict s
        (startNextQueued
          { s with jobs := updK id JStatus.completed s.jobs, tasks := delK id s.tasks })
  | task_gone_exec (s : SchedState) (id : Nat) (ht : (id, TPhase.executing) ∈ s.tasks)
      (hj : hasK s.jobs id = false) :
      Step strict s (startNextQueued { s with tasks := delK id s.tasks })
  | task_fail_final (s : SchedState) (id : Nat) (ht : (id, TPhase.executing) ∈ s.tasks)
      (hj : hasK s.jobs id = true) :
      Step strict s
        (startNextQueued
          { s with jobs := updK id JStatus.failed s.jobs, tasks := delK id s.tasks })
  | task_fail_retry (s : SchedState) (id : Nat) (ht : (id, TPhase.executing) ∈ s.tasks)
      (hj : hasK s.jobs id = true) :
      Step strict s
        (startNextQueued
          { s with jobs := updK id JStatus.retrying s.jobs,
                   tasks := updK id TPhase.backoff s.tasks })
  | backoff_acquire (s : SchedState) (id : Nat) (ht : (id, TPhase.backoff) ∈ s.tasks)
      (hj : hasK s.jobs id = true) (hr : s.running < (s.maxConcurrent : Int)) :
      Step strict s
        { s with running := s.running + 1, tasks := updK id TPhase.starting s.tasks }
  | backoff_queue (s : SchedState) (id : Nat) (ht : (id, TPhase.backoff) ∈ s.tasks)
      (hj : hasK s.jobs id = true) (hr : ¬ s.running < (s.maxConcurrent : Int)) :
      Step strict s
        { s with jobs := updK id JStatus.queued s.jobs,
                 queue := s.queue ++ [id],
                 tasks := delK id s.tasks }
  | backoff_gone (s : SchedState) (id : Nat) (ht : (id, TPhase.backoff) ∈ s.tasks)
      (hj : hasK s.jobs id = false) :
      Step strict s { s with tasks := delK id s.tasks }
  | delete_job (s : SchedState) (id : Nat) (h : hasK s.jobs id = true) :
      Step strict s { s with jobs := delK id s.jobs, queue := s.queue.erase id }
  | delete_all (s : SchedState) (h : strict = true → slotCount s.tasks = 0) :
      Step strict s { s with jobs := [], queue := [], running := 0 }

/-- A freshly constructed manager with no persisted state. -/
def initState (mc : Nat) : SchedState :=
  { jobs := [], queue := [], running := 0, tasks := [], nextId := 0, maxConcurrent := mc }

/-- Reachability of a scheduler state. -/
def SReach (strict : Bool) (mc : Nat) : SchedState → Prop :=
  Relation.ReflTransGen (Step strict) (initState mc)

/-- The inductive invariant of the scheduler (for the restricted system):
the running counter is bounded by the cap and equals the number of
slot-holding tasks; keys of the jobs map, of the task set and of the queue
are unique; every job in status `running` has a task in `executing`; every
queued id names an existing job with status `queued` and has no in-flight
task; a failed job has no in-flight task; all ids are at most `nextId`. -/
structure InvS (s : SchedState) : Prop where
  run_le : s.running ≤ (s.maxConcurrent : Int)
  run_eq : s.running = (slotCount s.tasks : Int)
  jkeys : (s.jobs.map Prod.fst).Nodup
  tkeys : (s.tasks.map Prod.fst).Nodup
  qkeys : s.queue.Nodup
  run_task : ∀ id : Nat, (id, JStatus.running) ∈ s.jobs → (id, TPhase.executing) ∈ s.tasks
  q_status : ∀ id ∈ s.queue, (id, JStatus.queued) ∈ s.jobs
  q_notask : ∀ id ∈ s.queue, id ∉ s.tasks.map Prod.fst
  failed_notask : ∀ id : Nat, (id, JStatus.failed) ∈ s.jobs → id ∉ s.tasks.map Prod.fst
  jle : ∀ id ∈ s.jobs.map Prod.fst, id ≤ s.nextId
  tle : ∀ id ∈ s.tasks.map Prod.fst, id ≤ s.nextId
  qle : ∀ id ∈ s.queue, id ≤ s.nextId

/-! ## Subscribers (downloader.go: `Unsubscribe`, `closeSubscribers`)

Channels are modelled by identifiers; the second component of each result is
the list of close operations performed. -/

/-- downloader.go: `Unsubscribe` — scan the subscriber list for the channel;
remove and close the first occurrence; do nothing if absent. -/
def Unsubscribe : List Nat → Nat → List Nat × List Nat
  | [], _ => ([], [])
  | s :: rest, ch =>
    if s = ch then (rest, [ch])
    else
      let r := Unsubscribe rest ch
      (s :: r.1, r.2)

/-- downloader.go: `closeSubscribers` — close every subscriber and empty the
set. -/
def closeSubscribers (subs : List Nat) : List Nat × List Nat := ([], subs)

/-! # Theorems -/

/-! ## C10 — `Unsubscribe` closes exactly the present channel -/

/-- C10: `Unsubscribe ch` removes and closes `ch` exactly when `ch` is in the
subscriber set; when absent it leaves the set unchanged and closes nothing;
hence running `Unsubscribe` after `closeSubscribers` closes nothing further,
and the total number of closes of `ch` across the two calls is its number of
occurrences in the original set — never two closes of one registration. -/
theorem C10_unsubscribe_close_once (subs : List Nat) (ch : Nat) :
    (ch ∉ subs → Unsubscribe subs ch = (subs, [])) ∧
    (ch ∈ subs → Unsubscribe subs ch = (subs.erase ch, [ch])) ∧
    (Unsubscribe (closeSubscribers subs).1 ch).2 = [] ∧
    List.count ch ((closeSubscribers subs).2 ++ (Unsubscribe (closeSubscribers subs).1 ch).2)
      = List.count ch subs := by
  refine ⟨?_, ?_, ?_, ?_⟩
  · intro h
    induction subs with
    | nil => rfl
    | cons a rest ih =>
      have ha : a ≠ ch := fun hc => h (by simp [hc])
      have hr : ch ∉ rest := fun hc => h (by simp [hc])
      simp [Unsubscribe, ha, ih hr]
  · intro h
    induction subs with
    | nil => simp at h
    | cons a rest ih =>
      by_cases ha : a = ch
      · subst ha
        simp [Unsubscribe]
      · have hr : ch ∈ rest := by
          rcases List.mem_cons.mp h with hc | hc
          · exact absurd hc.symm ha
          · exact hc
        simp [Unsubscribe, ha, ih hr, List.erase_cons,
          show (a == ch) = false by simp [ha]]
  · rfl
  · simp [closeSubscribers, Unsubscribe]

/-- Witness for C10 at concrete inputs. -/
theorem C10_unsubscribe_close_once_w :
    Unsubscribe [5] 7 = ([5], []) ∧ Unsubscribe [5, 7, 9] 7 = ([5, 9], [7]) :=
  ⟨(C10_unsubscribe_close_once [5] 7).1 (by decide),
   (C10_unsubscribe_close_once [5, 7, 9] 7).2.1 (by decide)⟩

/-! ## C9 — progress extraction idempotence -/

/-- C9: appending the line `[download]  42.5%` twice to any job broadcasts a
`progress` event with data `"42.5"` both times, and leaves the stored
progress equal to 42.5. -/
theorem C9_progress_idempotent (j : JobRec) :
    (appendLine j dlLine).2 = [⟨"progress", "42.5"⟩, ⟨"message", dlLine⟩] ∧
    (appendLine (appendLine j dlLine).1 dlLine).2 =
      [⟨"progress", "42.5"⟩, ⟨"message", dlLine⟩] ∧
    (appendLine (appendLine j dlLine).1 dlLine).1.progress = (42.5 : Rat) := by
  have h1 : extractProgress dlLine.data = some "42.5".data := by decide
  have h0 : parseDec "42.5".data = some (mkRat (Int.ofNat 425) 10) := rfl
  have h2 : parseDec "42.5".data = some (42.5 : Rat) := by
    rw [h0, Rat.mkRat_eq_div]
    norm_num
  have h3 : String.mk "42.5".data = "42.5" := rfl
  refine ⟨?_, ?_, ?_⟩ <;> simp [appendLine, h1, h2, h3]

/-- Witness for C9 at a concrete job. -/
theorem C9_progress_idempotent_w :
    (appendLine (appendLine (jobInit 3 JStatus.pending) dlLine).1 dlLine).1.progress = (42.5 : Rat) :=
  (C9_progress_idempotent (jobInit 3 JStatus.pending)).2.2

/-! ## C6 — backoff value and synthetic retry line -/

theorem timesThree_eq (n b : Nat) : timesThree n b = b * 3 ^ n := by
  induction n generalizing b with
  | zero => simp [timesThree]
  | succ m ih =>
    rw [timesThree, ih]
    ring

theorem digitCh_ne_lbrack (m : Nat) : digitCh m ≠ '[' := by
  unfold digitCh
  split <;> decide

theorem lbrack_not_in_natToChars (n : Nat) : '[' ∉ natToChars n := by
  induction n using Nat.strong_induction_on with
  | _ n ih =>
    rw [natToChars]
    split
    · simp
      exact fun hc => digitCh_ne_lbrack n hc.symm
    · rename_i hn
      simp
      refine ⟨ih (n / 10) (Nat.div_lt_self (by omega) (by omega)), ?_⟩
      exact fun hc => digitCh_ne_lbrack (n % 10) hc.symm

theorem notMemData_append {c : Char} {s t : String} (hs : c ∉ s.data) (ht : c ∉ t.data) :
    c ∉ (s ++ t).data := by
  intro hmem
  rw [String.data_append] at hmem
  rcases List.mem_append.mp hmem with hx | hx
  · exact hs hx
  · exact ht hx

theorem notMemData_ite {c : Char} (P : Prop) [Decidable P] {s : String} (hs : c ∉ s.data) :
    c ∉ (if P then s else "").data := by
  split
  · exact hs
  · intro hmem
    simp at hmem

theorem lbrack_not_in_natToStr (n : Nat) : '[' ∉ (natToStr n).data :=
  lbrack_not_in_natToChars n

theorem lbrack_not_in_fmtDuration (ns : Nat) : '[' ∉ (fmtDuration ns).data := by
  simp only [fmtDuration]
  refine notMemData_append (notMemData_append (notMemData_append ?_ ?_) ?_) (by decide)
  · exact notMemData_ite _ (notMemData_append (lbrack_not_in_natToStr _) (by decide))
  · exact notMemData_ite _ (notMemData_append (lbrack_not_in_natToStr _) (by decide))
  · exact lbrack_not_in_natToStr _

theorem lbrack_not_in_retryLine (a m b : Nat) : '[' ∉ (retryLine a m b).data := by
  simp only [retryLine]
  refine notMemData_append (notMemData_append (notMemData_append (notMemData_append
    (notMemData_append (notMemData_append (by decide) (lbrack_not_in_natToStr a)) (by decide))
    (lbrack_not_in_natToStr m)) (by decide)) (lbrack_not_in_fmtDuration b)) (by decide)

theorem litDownload_head : litDownload = '[' :: "download]".data := by decide

theorem matchProgressAt_none_of_ne (c : Char) (rest : List Char) (h : c ≠ '[') :
    matchProgressAt (c :: rest) = none := by
  unfold matchProgressAt
  rw [if_neg]
  rw [litDownload_head]
  simp [List.isPrefixOf]
  exact fun hc => absurd hc.symm h

theorem extractProgress_eq_none (l : List Char) (h : '[' ∉ l) : extractProgress l = none := by
  induction l with
  | nil => rfl
  | cons c rest ih =>
    have hc : c ≠ '[' := fun hc => h (by simp [hc])
    have hr : '[' ∉ rest := fun hm => h (by simp [hm])
    rw [extractProgress, matchProgressAt_none_of_ne c rest hc, ih hr]

theorem appendLine_no_match (j : JobRec) (line : String)
    (h : extractProgress line.data = none) :
    (appendLine j line).1 = { j with output := capOut (j.output ++ [line]) } := by
  simp [appendLine, h]

theorem failStep_fail_eq (j : JobRec) (msg : String) (now : Nat)
    (h : ¬ j.retryCount + 1 < j.maxRetries) :
    failStep j msg now =
      { j with status := JStatus.failed, error := msg, doneAt := some now,
               retryCount := j.retryCount + 1 } := by
  unfold failStep
  rw [if_pos (by simp; omega)]

theorem failStep_retry_eq (j : JobRec) (msg : String) (now : Nat)
    (h : j.retryCount + 1 < j.maxRetries) :
    failStep j msg now =
      { j with status := JStatus.retrying, progress := 0, retryCount := j.retryCount + 1,
               output := capOut (j.output ++
                 [retryLine (j.retryCount + 1) j.maxRetries (backoffNs (j.retryCount + 1))]) } := by
  unfold failStep
  rw [if_neg (by simp; omega)]
  rw [appendLine_no_match _ _ (extractProgress_eq_none _ (lbrack_not_in_retryLine _ _ _))]

/-- C6: when attempt `k = retryCount + 1` fails ordinarily with `k` below
`maxRetries`, the backoff loop computes `10s · 3^(k−1)` nanoseconds, the job
becomes `retrying` with progress reset to 0, and the synthetic line
`--- Retry k/N in <duration> ---` (N = `maxRetries`, duration formatted from
the backoff) is appended to the output through `appendLine`. -/
theorem C6_backoff_and_retry_line (j : JobRec) (msg : String) (now : Nat)
    (h : j.retryCount + 1 < j.maxRetries) :
    backoffNs (j.retryCount + 1) = 10000000000 * 3 ^ j.retryCount ∧
    (failStep j msg now).status = JStatus.retrying ∧
    (failStep j msg now).progress = 0 ∧
    (failStep j msg now).output =
      capOut (j.output ++
        ["--- Retry " ++ natToStr (j.retryCount + 1) ++ "/" ++ natToStr j.maxRetries ++
          " in " ++ fmtDuration (backoffNs (j.retryCount + 1)) ++ " ---"]) := by
  have hb : backoffNs (j.retryCount + 1) = 10000000000 * 3 ^ j.retryCount := by
    unfold backoffNs
    simp [timesThree_eq]
  have hfs := failStep_retry_eq j msg now h
  refine ⟨hb, ?_, ?_, ?_⟩ <;> simp [hfs, retryLine]

/-- Witness for C6 at a concrete job. -/
theorem C6_backoff_and_retry_line_w :
    (failStep (jobInit 3 JStatus.pending) "exit status 1" 7).status = JStatus.retrying :=
  (C6_backoff_and_retry_line (jobInit 3 JStatus.pending) "exit status 1" 7 (by decide)).2.1

/-! ## C2, C7 — per-job invariants along the lifecycle -/

theorem jinv_step {j j' : JobRec} (hinv : JInv j) (h : JStep j j') : JInv j' := by
  obtain ⟨h1, h2, h3, h4⟩ := hinv
  cases h with
  | start hs =>
    have ho := h3 (by rcases hs with hs | hs | hs <;> simp [hs])
    exact ⟨h1, h2, fun _ => ho, fun hc => by simp at hc⟩
  | emitOutput out prog hs => exact ⟨h1, h2, h3, h4⟩
  | complete now hs =>
    have ho := h3 (by simp [hs])
    exact ⟨h1, h2, fun _ => ho, fun hc => by simp at hc⟩
  | fail msg now hs =>
    have ho := h3 (by simp [hs])
    by_cases hlt : j.retryCount + 1 < j.maxRetries
    · rw [failStep_retry_eq j msg now hlt]
      refine ⟨h1, by simp; omega, ?_, ?_⟩
      · intro _
        simp
        exact ⟨by omega, ho.2⟩
      · intro hc
        simp at hc
    · rw [failStep_fail_eq j msg now hlt]
      refine ⟨h1, by simp; omega, ?_, ?_⟩
      · intro hc
        simp at hc
      · intro _
        simp
        omega
  | requeue hs =>
    have ho := h3 (by simp [hs])
    exact ⟨h1, h2, fun _ => ho, fun hc => by simp at hc⟩
  | retryApiDispatch hs =>
    exact ⟨h1, by simp, fun _ => by simp; omega, fun hc => by simp at hc⟩
  | retryApiQueue hs =>
    exact ⟨h1, by simp, fun _ => by simp; omega, fun hc => by simp at hc⟩

theorem jinv_reach {M : Nat} {st0 : JStatus} {j : JobRec} (hM : 1 ≤ M)
    (h0 : st0 = JStatus.pending ∨ st0 = JStatus.queued) (h : JReach M st0 j) : JInv j := by
  induction h with
  | refl =>
    refine ⟨hM, by simp [jobInit], fun _ => ⟨hM, rfl⟩, fun hc => ?_⟩
    rcases h0 with h0 | h0 <;> simp [jobInit, h0] at hc
  | tail _ hstep ih => exact jinv_step ih hstep

/-- C2: along every reachable state of a job created with a positive
configured retry cap, `retryCount ≤ maxRetries`, and a failed job has
consumed exactly `maxRetries` attempts. -/
theorem C2_retryCount_bounds (M : Nat) (st0 : JStatus) (j : JobRec) (hM : 1 ≤ M)
    (h0 : st0 = JStatus.pending ∨ st0 = JStatus.queued) (hr : JReach M st0 j) :
    j.retryCount ≤ j.maxRetries ∧
    (j.status = JStatus.failed → j.retryCount = j.maxRetries) :=
  ⟨(jinv_reach hM h0 hr).2.1, fun hf => ((jinv_reach hM h0 hr).2.2.2 hf).1⟩

/-- Witness for C2 at a reachable state: a job that ran and failed its final
attempt. -/
theorem C2_retryCount_bounds_w :
    ({ failStep { jobInit 1 JStatus.pending with status := JStatus.running } "boom" 4
        with lastMsg := "boom" } : JobRec).retryCount =
      ({ failStep { jobInit 1 JStatus.pending with status := JStatus.running } "boom" 4
          with lastMsg := "boom" } : JobRec).maxRetries :=
  (C2_retryCount_bounds 1 JStatus.pending _ (by decide) (Or.inl rfl)
      (Relation.ReflTransGen.tail (Relation.ReflTransGen.tail Relation.ReflTransGen.refl
        (JStep.start _ (Or.inl rfl)))
        (JStep.fail _ "boom" 4 rfl))).2 (by rw [failStep_fail_eq _ _ _ (by decide)])

/-- C7: along every reachable state of a job, the `error` field is empty
unless the job's status is `failed`, and on a failed job it holds exactly the
failure message of the last attempt (the ghost `lastMsg`, which every attempt
failure overwrites — last one wins). -/
theorem C7_error_field (M : Nat) (st0 : JStatus) (j : JobRec) (hM : 1 ≤ M)
    (h0 : st0 = JStatus.pending ∨ st0 = JStatus.queued) (hr : JReach M st0 j) :
    (j.status ≠ JStatus.failed → j.error = "") ∧
    (j.status = JStatus.failed → j.error = j.lastMsg) :=
  ⟨fun hn => ((jinv_reach hM h0 hr).2.2.1 hn).2, fun hf => ((jinv_reach hM h0 hr).2.2.2 hf).2⟩

/-- Witness for C7: the same failed job carries its last failure message. -/
theorem C7_error_field_w :
    ({ failStep { jobInit 1 JStatus.pending with status := JStatus.running } "boom" 4
        with lastMsg := "boom" } : JobRec).error =
      ({ failStep { jobInit 1 JStatus.pending with status := JStatus.running } "boom" 4
          with lastMsg := "boom" } : JobRec).lastMsg :=
  (C7_error_field 1 JStatus.pending _ (by decide) (Or.inl rfl)
      (Relation.ReflTransGen.tail (Relation.ReflTransGen.tail Relation.ReflTransGen.refl
        (JStep.start _ (Or.inl rfl)))
        (JStep.fail _ "boom" 4 rfl))).2 (by rw [failStep_fail_eq _ _ _ (by decide)])

/-! ## C5 — round-trip persistence of terminal-only schedulers -/

theorem jobToPersisted_id (j : PJob) : jobToPersisted j = j := rfl

theorem persistedToJob_id (p : PJob) : persistedToJob p = p := rfl

/-- C5: for a manager all of whose jobs are terminal, `saveState` followed by
`loadState` reproduces every job record — all of id, url, status, createdAt,
doneAt, error, progress, retryCount, maxRetries and output — in the same
order, restores `nextId`, and re-enqueues nothing. -/
theorem C5_terminal_roundtrip (m : ManagerP)
    (h : ∀ j ∈ m.jobs, j.status = JStatus.completed ∨ j.status = JStatus.failed) :
    (loadState (saveState m)).jobs = m.jobs ∧
    (loadState (saveState m)).queue = [] ∧
    (loadState (saveState m)).nextId = m.nextId := by
  have hterm : ∀ j ∈ m.jobs, isTerminal j.status = true := by
    intro j hj
    rcases h j hj with hc | hc <;> simp [isTerminal, hc]
  have hmap : m.jobs.map jobToPersisted = m.jobs := by
    rw [show jobToPersisted = id from funext jobToPersisted_id, List.map_id]
  have hmapP : List.map persistedToJob m.jobs = m.jobs := by
    rw [show persistedToJob = id from funext persistedToJob_id, List.map_id]
  have hfilter1 : m.jobs.filter (fun p => isTerminal p.status) = m.jobs :=
    List.filter_eq_self.mpr hterm
  have hfilter2 : m.jobs.filter (fun p => !isTerminal p.status) = [] := by
    rw [List.filter_eq_nil_iff]
    intro j hj
    simp [hterm j hj]
  refine ⟨?_, ?_, ?_⟩ <;>
    simp [loadState, saveState, hmap, hmapP, hfilter1, hfilter2]

/-- Witness for C5 at a concrete one-job manager. -/
theorem C5_terminal_roundtrip_w :
    (loadState (saveState
        { jobs := [{ id := "1", url := "u", status := JStatus.completed, createdAt := 5,
                     doneAt := some 9, error := "", progress := 100, retryCount := 0,
                     maxRetries := 3, output := ["done"] }],
          queue := [], nextId := 1 })).jobs =
      [{ id := "1", url := "u", status := JStatus.completed, createdAt := 5,
         doneAt := some 9, error := "", progress := 100, retryCount := 0,
         maxRetries := 3, output := ["done"] }] :=
  (C5_terminal_roundtrip _ (by
    intro j hj
    rw [List.mem_singleton] at hj
    subst hj
    exact Or.inl rfl)).1

/-! ## C4 — re-queue law of `loadState` -/

/-- C4: `loadState` restores every persisted non-terminal job (status
`running`, `pending`, `retrying` or `queued`) with status `queued` and
progress 0; the restored queue is exactly the ids of those jobs listed in
ascending `createdAt` order (FIFO by admission time); terminal jobs restore
verbatim. -/
theorem C4_requeue_law (st : PState) :
    (∀ p ∈ st.jobs, isTerminal p.status = false →
      ∃ r ∈ (loadState st).jobs,
        r.id = p.id ∧ r.status = JStatus.queued ∧ r.progress = 0) ∧
    (∃ rq : List PJob,
      (loadState st).queue = rq.map (fun p => p.id) ∧
      rq.Perm ((st.jobs.filter fun p => !isTerminal p.status).map
        fun p => { p with status := JStatus.queued, progress := (0 : Rat) }) ∧
      (rq.map fun p => p.createdAt).Sorted (· ≤ ·)) ∧
    (∀ p ∈ st.jobs, isTerminal p.status = true → p ∈ (loadState st).jobs) := by
  refine ⟨?_, ?_, ?_⟩
  · intro p hp hnt
    refine ⟨{ p with status := JStatus.queued, progress := (0 : Rat) }, ?_, rfl, rfl, rfl⟩
    simp only [loadState, List.mem_append]
    right
    rw [List.mem_map]
    refine ⟨{ p with status := JStatus.queued, progress := (0 : Rat) }, ?_, rfl⟩
    rw [(List.perm_insertionSort createdLe _).mem_iff]
    rw [List.mem_map]
    exact ⟨p, List.mem_filter.mpr ⟨hp, by simp [hnt]⟩, rfl⟩
  · refine ⟨List.insertionSort createdLe _, ?_, List.perm_insertionSort createdLe _, ?_⟩
    · rfl
    · rw [List.Sorted, List.pairwise_map]
      exact List.sorted_insertionSort createdLe _
  · intro p hp ht
    simp only [loadState, List.mem_append]
    left
    rw [List.mem_map]
    exact ⟨p, List.mem_filter.mpr ⟨hp, by simp [ht]⟩, rfl⟩

/-! ## C8 — the CR/LF/CRLF splitter -/

theorem scanFind_bounds (l : List Char) (i a : Nat) (h : scanFind l = some (i, a)) :
    1 ≤ a ∧ a ≤ l.length := by
  induction l generalizing i a with
  | nil => simp [scanFind] at h
  | cons c rest ih =>
    by_cases h1 : c = '\n'
    · subst h1
      simp [scanFind] at h
      simp
      omega
    · by_cases h2 : c = '\r'
      · subst h2
        simp [scanFind] at h
        cases rest with
        | nil =>
          simp at h
          simp
          omega
        | cons d rest2 =>
          by_cases h3 : d = '\n'
          · subst h3
            simp at h
            simp
            omega
          · simp [h3] at h
            simp
            omega
      · simp [scanFind, h1, h2] at h
        obtain ⟨i0, a0, hia0, _, ha⟩ := h
        have := ih i0 a0 hia0
        simp
        omega

theorem splitSpec_of_scanFind (data : List Char) (i adv : Nat)
    (h : scanFind data = some (i, adv)) :
    splitSpec data = data.take i :: splitSpec (data.drop adv) := by
  induction data generalizing i adv with
  | nil => simp [scanFind] at h
  | cons c rest ih =>
    by_cases h1 : c = '\n'
    · subst h1
      simp [scanFind] at h
      obtain ⟨hi, hadv⟩ := h
      rw [← hi, ← hadv]
      cases rest with
      | nil => simp [splitSpec]
      | cons d rest2 => simp [splitSpec]
    · by_cases h2 : c = '\r'
      · subst h2
        cases rest with
        | nil =>
          simp [scanFind] at h
          obtain ⟨hi, hadv⟩ := h
          rw [← hi, ← hadv]
          simp [splitSpec]
        | cons d rest2 =>
          by_cases h3 : d = '\n'
          · subst h3
            simp [scanFind] at h
            obtain ⟨hi, hadv⟩ := h
            rw [← hi, ← hadv]
            simp [splitSpec]
          · simp [scanFind, h3] at h
            obtain ⟨hi, hadv⟩ := h
            rw [← hi, ← hadv]
            simp [splitSpec, h3]
      · simp [scanFind, h1, h2] at h
        obtain ⟨i0, a0, hf0, hi, hadv⟩ := h
        have ihr := ih i0 a0 hf0
        cases rest with
        | nil => simp [scanFind] at hf0
        | cons d rest2 =>
          rw [← hi, ← hadv]
          simp [splitSpec, h1, h2, ihr]

theorem splitSpec_of_scanFind_none (data : List Char) (h : scanFind data = none) :
    splitSpec data = [data] := by
  induction data with
  | nil => rfl
  | cons c rest ih =>
    by_cases h1 : c = '\n'
    · subst h1
      simp [scanFind] at h
    · by_cases h2 : c = '\r'
      · subst h2
        cases rest with
        | nil => simp [scanFind] at h
        | cons d rest2 =>
          by_cases h3 : d = '\n'
          · subst h3
            simp [scanFind] at h
          · simp [scanFind, h3] at h
      · simp [scanFind, h1, h2] at h
        have ihr := ih h
        cases rest with
        | nil => simp [splitSpec, h1, h2]
        | cons d rest2 => simp [splitSpec, h1, h2, ihr]

theorem scanCRLF_true_of_find (data : List Char) (i adv : Nat) (hne : data ≠ [])
    (h : scanFind data = some (i, adv)) :
    scanCRLF data true = some (adv, data.take i) := by
  unfold scanCRLF
  rw [if_neg (by simp [hne]), h]

theorem scanCRLF_true_of_none (data : List Char) (hne : data ≠ [])
    (h : scanFind data = none) :
    scanCRLF data true = some (data.length, data) := by
  unfold scanCRLF
  rw [if_neg (by simp [hne]), h]
  simp

theorem scanTokens_nil : scanTokens [] = [] := by
  rw [scanTokens]
  rfl

theorem scanTokens_step (data : List Char) (adv : Nat) (tok : List Char)
    (h : scanCRLF data true = some (adv, tok)) :
    scanTokens data = tok :: scanTokens (data.drop adv) := by
  rw [scanTokens]
  split
  · rename_i heq
    rw [heq] at h
    simp at h
  · rename_i adv2 tok2 heq
    rw [heq] at h
    simp at h
    obtain ⟨h1, h2⟩ := h
    rw [h1, h2]

/-- C8: the scanner built on `scanCRLF` splits the byte stream into segments
at every `\n`, `\r` and `\r\n` (the two-byte `\r\n` a single separator),
keeps them in input order, and — composed with the trim-and-drop step of
`executeDownload` — emits exactly the segments the specification's splitter
produces, empty-after-trim segments dropped. -/
theorem C8_parser_refinement (data : List Char) :
    emittedLines data = splitSpecEmitted data := by
  suffices haux : ∀ (n : Nat) (d : List Char), d.length ≤ n →
      emitFilter (scanTokens d) = emitFilter (splitSpec d) from
    haux data.length data le_rfl
  intro n
  induction n with
  | zero =>
    intro d hd
    have hnil : d = [] := List.eq_nil_of_length_eq_zero (by omega)
    subst hnil
    rw [scanTokens_nil]
    rfl
  | succ n ih =>
    intro d hd
    cases d with
    | nil =>
      rw [scanTokens_nil]
      rfl
    | cons c rest =>
      have hne : (c :: rest) ≠ [] := by simp
      cases hf : scanFind (c :: rest) with
      | some p =>
        obtain ⟨i, adv⟩ := p
        have hb := scanFind_bounds _ _ _ hf
        rw [scanTokens_step _ adv _ (scanCRLF_true_of_find _ _ _ hne hf)]
        rw [splitSpec_of_scanFind _ _ _ hf]
        have hlen : ((c :: rest).drop adv).length ≤ n := by
          simp at hd hb ⊢
          omega
        have ht := ih _ hlen
        simp only [emitFilter, List.map_cons, List.filter_cons] at ht ⊢
        split <;> rw [ht]
      | none =>
        rw [scanTokens_step _ (c :: rest).length _ (scanCRLF_true_of_none _ hne hf)]
        rw [List.drop_length, scanTokens_nil]
        rw [splitSpec_of_scanFind_none _ hf]

/-- Witness for C8 at a concrete stream mixing all three separators, an
in-line `\r` progress overwrite and whitespace-only segments. -/
theorem C8_parser_refinement_w :
    emittedLines "a 1%\rb 2%\r\n  \nlast".data =
      splitSpecEmitted "a 1%\rb 2%\r\n  \nlast".data :=
  C8_parser_refinement "a 1%\rb 2%\r\n  \nlast".data

/-! ## C3 — duplicate suppression in `StartDownload` -/

/-- C3: while the server is not shutting down, (1) a successful
`StartDownload u` leaves a job with URL `u` whose status is not `completed`
in the jobs map, and (2) whenever such a job exists — as it does from the
moment a submit succeeds until that job is deleted or completes —
`StartDownload u` returns the duplicate error and leaves the state (jobs map
and queue included) exactly unchanged. -/
theorem C3_duplicate_law (s : SubSt) (u : String) (hsd : s.shutdown = false) :
    (∀ s' j, StartDownload s u = (s', Except.ok j) →
      ∃ j' ∈ s'.jobs, j'.url = u ∧ j'.status ≠ JStatus.completed) ∧
    ((∃ j ∈ s.jobs, j.url = u ∧ j.status ≠ JStatus.completed) →
      (StartDownload s u).1 = s ∧
      (StartDownload s u).2 = Except.error "a download already exists for this URL") := by
  constructor
  · intro s' j h
    simp [StartDownload, hsd] at h
    by_cases hex : ∃ x ∈ s.jobs, x.url = u ∧ ¬x.status = JStatus.completed
    · rw [if_pos hex] at h
      simp at h
    · rw [if_neg hex] at h
      split at h <;>
      · simp at h
        obtain ⟨hs', hj⟩ := h
        refine ⟨j, ?_, ?_, ?_⟩
        · rw [← hs']
          simp [← hj]
        · rw [← hj]
        · rw [← hj]
          simp
  · intro hdup
    have hex : ∃ x ∈ s.jobs, x.url = u ∧ ¬x.status = JStatus.completed := by
      obtain ⟨j, hj, hurl, hst⟩ := hdup
      exact ⟨j, hj, hurl, hst⟩
    constructor <;> simp [StartDownload, hsd, hex]

/-- Witness for C3: a state holding a pending job for the URL rejects a
second submission of it unchanged. -/
theorem C3_duplicate_law_w :
    (StartDownload
        { jobs := [{ id := "1", url := "u", status := JStatus.pending }],
          queue := [], running := 1, nextId := 1, maxConcurrent := 3, shutdown := false }
        "u").2 = Except.error "a download already exists for this URL" :=
  ((C3_duplicate_law
      { jobs := [{ id := "1", url := "u", status := JStatus.pending }],
        queue := [], running := 1, nextId := 1, maxConcurrent := 3, shutdown := false }
      "u" rfl).2
    ⟨{ id := "1", url := "u", status := JStatus.pending },
      List.mem_singleton.mpr rfl, rfl, by decide⟩).2

/-! ## Association-list and slot-counting lemmas for the scheduler model -/

theorem updK_cons {β : Type} (k : Nat) (v : β) (a : Nat) (b : β) (t : List (Nat × β)) :
    updK k v ((a, b) :: t) = (if a = k then (a, v) else (a, b)) :: updK k v t := rfl

theorem keys_updK {β : Type} (k : Nat) (v : β) (l : List (Nat × β)) :
    (updK k v l).map Prod.fst = l.map Prod.fst := by
  unfold updK
  rw [List.map_map]
  apply List.map_congr_left
  intro p _
  by_cases hp : p.1 = k <;> simp [hp]

theorem mem_updK_self {β : Type} {k : Nat} {c : β} {l : List (Nat × β)} (v : β)
    (h : (k, c) ∈ l) : (k, v) ∈ updK k v l :=
  List.mem_map.mpr ⟨(k, c), h, by simp⟩

theorem mem_updK_of_ne {β : Type} {a k : Nat} {b : β} {l : List (Nat × β)} (v : β)
    (h : (a, b) ∈ l) (hne : a ≠ k) : (a, b) ∈ updK k v l :=
  List.mem_map.mpr ⟨(a, b), h, by simp [hne]⟩

theorem mem_updK_elim {β : Type} {a k : Nat} {b v : β} {l : List (Nat × β)}
    (h : (a, b) ∈ updK k v l) : (a = k ∧ b = v) ∨ ((a, b) ∈ l ∧ a ≠ k) := by
  obtain ⟨p, hp, heq⟩ := List.mem_map.mp h
  by_cases h1 : p.1 = k
  · rw [if_pos h1] at heq
    left
    obtain ⟨he1, he2⟩ := Prod.mk.injEq .. |>.mp heq
    exact ⟨he1 ▸ h1, he2.symm⟩
  · rw [if_neg h1] at heq
    right
    subst heq
    exact ⟨hp, h1⟩

theorem updK_eq_self_of_not_mem {β : Type} {k : Nat} {l : List (Nat × β)} (v : β)
    (h : k ∉ l.map Prod.fst) : updK k v l = l := by
  unfold updK
  conv_rhs => rw [← List.map_id l]
  apply List.map_congr_left
  intro p hp
  have hpk : p.1 ≠ k := fun hc => h (List.mem_map.mpr ⟨p, hp, hc⟩)
  simp [hpk]

theorem mem_delK {β : Type} {a k : Nat} {b : β} {l : List (Nat × β)} :
    (a, b) ∈ delK k l ↔ (a, b) ∈ l ∧ a ≠ k := by
  unfold delK
  simp [List.mem_filter]

theorem keys_delK_sub {β : Type} {k : Nat} {l : List (Nat × β)} {a : Nat}
    (h : a ∈ (delK k l).map Prod.fst) : a ∈ l.map Prod.fst ∧ a ≠ k := by
  obtain ⟨p, hp, hfst⟩ := List.mem_map.mp h
  have hm := mem_delK.mp (show (p.1, p.2) ∈ delK k l from hp)
  subst hfst
  exact ⟨List.mem_map.mpr ⟨p, hm.1, rfl⟩, hm.2⟩

theorem delK_sublist {β : Type} (k : Nat) (l : List (Nat × β)) :
    List.Sublist (delK k l) l :=
  List.filter_sublist l

theorem nodup_keys_delK {β : Type} {k : Nat} {l : List (Nat × β)}
    (h : (l.map Prod.fst).Nodup) : ((delK k l).map Prod.fst).Nodup :=
  List.Nodup.sublist ((delK_sublist k l).map Prod.fst) h

theorem delK_eq_self_of_not_mem {β : Type} {k : Nat} {l : List (Nat × β)}
    (h : k ∉ l.map Prod.fst) : delK k l = l := by
  unfold delK
  apply List.filter_eq_self.mpr
  intro p hp
  have hpk : p.1 ≠ k := fun hc => h (List.mem_map.mpr ⟨p, hp, hc⟩)
  simp [hpk]

theorem hasK_iff {β : Type} {l : List (Nat × β)} {k : Nat} :
    hasK l k = true ↔ k ∈ l.map Prod.fst := by
  unfold hasK
  rw [List.any_eq_true]
  constructor
  · rintro ⟨p, hp, he⟩
    simp at he
    exact List.mem_map.mpr ⟨p, hp, he⟩
  · intro h
    obtain ⟨p, hp, he⟩ := List.mem_map.mp h
    exact ⟨p, hp, by simp [he]⟩

theorem hasK_exists {β : Type} {l : List (Nat × β)} {k : Nat} (h : hasK l k = true) :
    ∃ v, (k, v) ∈ l := by
  obtain ⟨p, hp, he⟩ := List.mem_map.mp (hasK_iff.mp h)
  exact ⟨p.2, by rw [← he]; exact hp⟩

theorem hasK_false {β : Type} {l : List (Nat × β)} {k : Nat} (h : hasK l k = false) :
    k ∉ l.map Prod.fst := by
  intro hc
  rw [← hasK_iff, h] at hc
  exact Bool.false_ne_true hc

theorem hasK_true_of_mem {β : Type} {l : List (Nat × β)} {k : Nat} {v : β}
    (h : (k, v) ∈ l) : hasK l k = true :=
  hasK_iff.mpr (List.mem_map.mpr ⟨(k, v), h, rfl⟩)

theorem key_unique {β : Type} {l : List (Nat × β)} (hn : (l.map Prod.fst).Nodup)
    {k : Nat} {b c : β} (h1 : (k, b) ∈ l) (h2 : (k, c) ∈ l) : b = c := by
  induction l with
  | nil => simp at h1
  | cons p t ih =>
    simp only [List.map_cons, List.nodup_cons] at hn
    rcases List.mem_cons.mp h1 with e1 | m1 <;> rcases List.mem_cons.mp h2 with e2 | m2
    · have he := e1.trans e2.symm
      exact (Prod.mk.injEq .. |>.mp he).2
    · exfalso
      apply hn.1
      rw [← e1]
      exact List.mem_map.mpr ⟨(k, c), m2, rfl⟩
    · exfalso
      apply hn.1
      rw [← e2]
      exact List.mem_map.mpr ⟨(k, b), m1, rfl⟩
    · exact ih hn.2 m1 m2

theorem slotCount_cons (p : Nat × TPhase) (t : List (Nat × TPhase)) :
    slotCount (p :: t) = (if holdsSlot p.2 then 1 else 0) + slotCount t := by
  simp only [slotCount, List.filter_cons]
  split <;> simp [Nat.add_comm]

theorem slotCount_append_start (l : List (Nat × TPhase)) (id : Nat) :
    slotCount (l ++ [(id, TPhase.starting)]) = slotCount l + 1 := by
  simp [slotCount, List.filter_append, holdsSlot]

theorem slotCount_updK (l : List (Nat × TPhase)) (k : Nat) (ph ph' : TPhase)
    (hn : (l.map Prod.fst).Nodup) (hm : (k, ph) ∈ l) :
    slotCount (updK k ph' l) + (if holdsSlot ph then 1 else 0) =
      slotCount l + (if holdsSlot ph' then 1 else 0) := by
  induction l with
  | nil => simp at hm
  | cons p t ih =>
    obtain ⟨a, b⟩ := p
    simp only [List.map_cons, List.nodup_cons] at hn
    rcases List.mem_cons.mp hm with heq | hmt
    · obtain ⟨hk, hb⟩ := Prod.mk.injEq .. |>.mp heq.symm
      subst hk hb
      rw [updK_cons, if_pos rfl, updK_eq_self_of_not_mem _ hn.1]
      rw [slotCount_cons, slotCount_cons]
      simp
      omega
    · have hak : a ≠ k := fun hc => hn.1 (hc ▸ List.mem_map.mpr ⟨(k, ph), hmt, rfl⟩)
      rw [updK_cons, if_neg hak, slotCount_cons, slotCount_cons]
      have := ih hn.2 hmt
      omega

theorem slotCount_delK (l : List (Nat × TPhase)) (k : Nat) (ph : TPhase)
    (hn : (l.map Prod.fst).Nodup) (hm : (k, ph) ∈ l) :
    slotCount (delK k l) + (if holdsSlot ph then 1 else 0) = slotCount l := by
  induction l with
  | nil => simp at hm
  | cons p t ih =>
    obtain ⟨a, b⟩ := p
    simp only [List.map_cons, List.nodup_cons] at hn
    rcases List.mem_cons.mp hm with heq | hmt
    · obtain ⟨hk, hb⟩ := Prod.mk.injEq .. |>.mp heq.symm
      have hd : delK k ((a, b) :: t) = t := by
        unfold delK
        rw [List.filter_cons, if_neg (by simp [hk])]
        exact delK_eq_self_of_not_mem (hk ▸ hn.1)
      rw [hd, slotCount_cons]
      have hph : (a, b).2 = ph := hb
      rw [hph]
      omega
    · have hak : a ≠ k := fun hc => hn.1 (hc ▸ List.mem_map.mpr ⟨(k, ph), hmt, rfl⟩)
      have hd : delK k ((a, b) :: t) = (a, b) :: delK k t := by
        unfold delK
        rw [List.filter_cons, if_pos (by simp [hak])]
      rw [hd, slotCount_cons, slotCount_cons]
      have := ih hn.2 hmt
      omega

theorem length_filter_mono {α : Type} (p q : α → Bool) (l : List α)
    (h : ∀ a, p a = true → q a = true) :
    (l.filter p).length ≤ (l.filter q).length := by
  induction l with
  | nil => simp
  | cons a t ih =>
    rw [List.filter_cons, List.filter_cons]
    by_cases hp : p a = true
    · rw [if_pos hp, if_pos (h a hp)]
      simp
      omega
    · rw [if_neg hp]
      split
      · simp
        omega
      · exact ih

/-! ## `startNextQueued` preserves the scheduler invariant -/

theorem popLoop_inv (jobs : List (Nat × JStatus)) (tasks : List (Nat × TPhase))
    (running : Int) (q : List Nat)
    (hqn : q.Nodup)
    (hq_st : ∀ id ∈ q, (id, JStatus.queued) ∈ jobs)
    (hq_nt : ∀ id ∈ q, id ∉ tasks.map Prod.fst)
    (htk : (tasks.map Prod.fst).Nodup) :
    ((popLoop jobs tasks running q).2.2 - ((slotCount (popLoop jobs tasks running q).2.1 : Nat) : Int)
        = running - ((slotCount tasks : Nat) : Int)) ∧
    (popLoop jobs tasks running q).2.2 ≤ running + 1 ∧
    (((popLoop jobs tasks running q).2.1.map Prod.fst).Nodup) ∧
    ((popLoop jobs tasks running q).1.Nodup) ∧
    (∀ id ∈ (popLoop jobs tasks running q).1, id ∈ q) ∧
    (∀ e ∈ tasks, e ∈ (popLoop jobs tasks running q).2.1) ∧
    (∀ a ∈ (popLoop jobs tasks running q).2.1.map Prod.fst,
      a ∈ tasks.map Prod.fst ∨ a ∈ q) ∧
    (∀ id ∈ (popLoop jobs tasks running q).1,
      id ∉ (popLoop jobs tasks running q).2.1.map Prod.fst) := by
  cases q with
  | nil =>
    simp [popLoop]
    exact htk
  | cons id rest =>
    have hjk : hasK jobs id = true := hasK_true_of_mem (hq_st id (by simp))
    have hnid : id ∉ tasks.map Prod.fst := hq_nt id (by simp)
    simp only [List.nodup_cons] at hqn
    simp only [popLoop, hjk, if_true]
    refine ⟨?_, ?_, ?_, hqn.2, ?_, ?_, ?_, ?_⟩
    · rw [slotCount_append_start]
      push_cast
      ring
    · omega
    · simp only [List.map_append, List.map_cons, List.map_nil]
      rw [List.nodup_append]
      exact ⟨htk, List.nodup_singleton id, by simp [hnid]⟩
    · intro x hx
      exact List.mem_cons_of_mem id hx
    · intro e he
      exact List.mem_append_left _ he
    · intro a ha
      simp only [List.map_append, List.map_cons, List.map_nil, List.mem_append] at ha
      rcases ha with ha | ha
      · exact Or.inl ha
      · simp at ha
        exact Or.inr (by simp [ha])
    · intro x hx hc
      simp only [List.map_append, List.map_cons, List.map_nil, List.mem_append] at hc
      rcases hc with hc | hc
      · exact hq_nt x (List.mem_cons_of_mem id hx) hc
      · simp at hc
        exact hqn.1 (hc ▸ hx)

theorem invS_startNextQueued (m : SchedState)
    (run_le : m.running ≤ (m.maxConcurrent : Int))
    (run_eq1 : m.running = ((slotCount m.tasks : Nat) : Int) + 1)
    (jkeys : (m.jobs.map Prod.fst).Nodup)
    (tkeys : (m.tasks.map Prod.fst).Nodup)
    (qkeys : m.queue.Nodup)
    (run_task : ∀ id : Nat, (id, JStatus.running) ∈ m.jobs → (id, TPhase.executing) ∈ m.tasks)
    (q_status : ∀ id ∈ m.queue, (id, JStatus.queued) ∈ m.jobs)
    (q_notask : ∀ id ∈ m.queue, id ∉ m.tasks.map Prod.fst)
    (failed_notask : ∀ id : Nat, (id, JStatus.failed) ∈ m.jobs → id ∉ m.tasks.map Prod.fst)
    (jle : ∀ id ∈ m.jobs.map Prod.fst, id ≤ m.nextId)
    (tle : ∀ id ∈ m.tasks.map Prod.fst, id ≤ m.nextId)
    (qle : ∀ id ∈ m.queue, id ≤ m.nextId) :
    InvS (startNextQueued m) := by
  obtain ⟨hcnt, hle, htk2, hqk2, hqsub, hext, hkeys2, hqnt2⟩ :=
    popLoop_inv m.jobs m.tasks (m.running - 1) m.queue qkeys q_status q_notask tkeys
  simp only [startNextQueued]
  refine ⟨?_, ?_, jkeys, htk2, hqk2, ?_, ?_, hqnt2, ?_, jle, ?_, ?_⟩
  · simp only []
    omega
  · simp only []
    omega
  · intro id hmem
    exact hext _ (run_task id hmem)
  · intro id hid
    exact q_status id (hqsub id hid)
  · intro id hmem hc
    rcases hkeys2 id hc with hold | hq
    · exact failed_notask id hmem hold
    · have hq2 := q_status id hq
      have := key_unique jkeys hq2 hmem
      simp at this
  · intro a ha
    rcases hkeys2 a ha with hold | hq
    · exact tle a hold
    · exact qle a hq
  · intro id hid
    exact qle id (hqsub id hid)
theorem invS_init (mc : Nat) : InvS (initState mc) := by
  refine ⟨?_, ?_, ?_, ?_, ?_, ?_, ?_, ?_, ?_, ?_, ?_, ?_⟩ <;>
    simp [initState, slotCount]

theorem runningJobs_le_of_inv (s : SchedState) (hs : InvS s) :
    runningJobs s ≤ s.maxConcurrent := by
  have hnd : ((s.jobs.filter fun p => p.2 = JStatus.running).map Prod.fst).Nodup :=
    List.Nodup.sublist ((List.filter_sublist s.jobs).map Prod.fst) hs.jkeys
  have hsub : ((s.jobs.filter fun p => p.2 = JStatus.running).map Prod.fst) ⊆
      ((s.tasks.filter fun t => t.2 = TPhase.executing).map Prod.fst) := by
    intro a ha
    obtain ⟨p, hp, hfst⟩ := List.mem_map.mp ha
    obtain ⟨hpl, hps⟩ := List.mem_filter.mp hp
    have hps2 : p.2 = JStatus.running := by simpa using hps
    have hpr : (a, JStatus.running) ∈ s.jobs := by
      rw [← hfst, ← hps2]
      exact hpl
    have hex := hs.run_task a hpr
    exact List.mem_map.mpr ⟨(a, TPhase.executing), List.mem_filter.mpr ⟨hex, by simp⟩, rfl⟩
  have hlen1 : ((s.jobs.filter fun p => p.2 = JStatus.running).map Prod.fst).length ≤
      ((s.tasks.filter fun t => t.2 = TPhase.executing).map Prod.fst).length :=
    (List.subperm_of_subset hnd hsub).length_le
  have hlen2 : (s.tasks.filter fun t => t.2 = TPhase.executing).length ≤ slotCount s.tasks := by
    apply length_filter_mono
    intro t ht
    simp at ht
    simp [holdsSlot, ht]
  have hrun : runningJobs s ≤ slotCount s.tasks := by
    unfold runningJobs
    rw [List.length_map, List.length_map] at hlen1
    omega
  have h1 := hs.run_le
  have h2 := hs.run_eq
  omega

theorem invS_step {s t : SchedState} (hs : InvS s) (h : Step true s t) : InvS t := by
  obtain ⟨run_le, run_eq, jkeys, tkeys, qkeys, run_task, q_status, q_notask,
    failed_notask, jle, tle, qle⟩ := hs
  cases h with
  | submit_dispatch h =>
    have hfj : s.nextId + 1 ∉ s.jobs.map Prod.fst := fun hc => by have := jle _ hc; omega
    have hft : s.nextId + 1 ∉ s.tasks.map Prod.fst := fun hc => by have := tle _ hc; omega
    refine ⟨?_, ?_, ?_, ?_, qkeys, ?_, ?_, ?_, ?_, ?_, ?_, ?_⟩
    · show s.running + 1 ≤ (s.maxConcurrent : Int)
      omega
    · show s.running + 1 = ((slotCount (s.tasks ++ [(s.nextId + 1, TPhase.starting)]) : Nat) : Int)
      rw [slotCount_append_start]
      push_cast
      omega
    · simp only [List.map_append, List.map_cons, List.map_nil]
      rw [List.nodup_append]
      exact ⟨jkeys, List.nodup_singleton _, by simp [hfj]⟩
    · simp only [List.map_append, List.map_cons, List.map_nil]
      rw [List.nodup_append]
      exact ⟨tkeys, List.nodup_singleton _, by simp [hft]⟩
    · intro a ha
      rcases List.mem_append.mp ha with ha | ha
      · exact List.mem_append_left _ (run_task a ha)
      · simp at ha
    · intro x hx
      exact List.mem_append_left _ (q_status x hx)
    · intro x hx hc
      simp only [List.map_append, List.map_cons, List.map_nil, List.mem_append] at hc
      rcases hc with hc | hc
      · exact q_notask x hx hc
      · simp at hc
        have := qle x hx
        omega
    · intro a ha hc
      rcases List.mem_append.mp ha with ha | ha
      · simp only [List.map_append, List.map_cons, List.map_nil, List.mem_append] at hc
        rcases hc with hc | hc
        · exact failed_notask a ha hc
        · simp at hc
          have : a ∈ s.jobs.map Prod.fst := List.mem_map.mpr ⟨(a, JStatus.failed), ha, rfl⟩
          have := jle _ this
          omega
      · simp at ha
    · intro a ha
      show a ≤ s.nextId + 1
      simp only [List.map_append, List.map_cons, List.map_nil, List.mem_append] at ha
      rcases ha with ha | ha
      · have := jle a ha
        omega
      · simp at ha
        omega
    · intro a ha
      show a ≤ s.nextId + 1
      simp only [List.map_append, List.map_cons, List.map_nil, List.mem_append] at ha
      rcases ha with ha | ha
      · have := tle a ha
        omega
      · simp at ha
        omega
    · intro x hx
      show x ≤ s.nextId + 1
      have := qle x hx
      omega
  | submit_queue h =>
    have hfj : s.nextId + 1 ∉ s.jobs.map Prod.fst := fun hc => by have := jle _ hc; omega
    have hft : s.nextId + 1 ∉ s.tasks.map Prod.fst := fun hc => by have := tle _ hc; omega
    have hfq : s.nextId + 1 ∉ s.queue := fun hc => by have := qle _ hc; omega
    refine ⟨run_le, run_eq, ?_, tkeys, ?_, ?_, ?_, ?_, ?_, ?_, ?_, ?_⟩
    · simp only [List.map_append, List.map_cons, List.map_nil]
      rw [List.nodup_append]
      exact ⟨jkeys, List.nodup_singleton _, by simp [hfj]⟩
    · rw [List.nodup_append]
      exact ⟨qkeys, List.nodup_singleton _, by simp [hfq]⟩
    · intro a ha
      rcases List.mem_append.mp ha with ha | ha
      · exact run_task a ha
      · simp at ha
    · intro x hx
      rcases List.mem_append.mp hx with hx | hx
      · exact List.mem_append_left _ (q_status x hx)
      · simp at hx
        subst hx
        exact List.mem_append_right _ (by simp)
    · intro x hx hc
      rcases List.mem_append.mp hx with hx | hx
      · exact q_notask x hx hc
      · simp at hx
        subst hx
        exact hft hc
    · intro a ha hc
      rcases List.mem_append.mp ha with ha | ha
      · exact failed_notask a ha hc
      · simp at ha
    · intro a ha
      show a ≤ s.nextId + 1
      simp only [List.map_append, List.map_cons, List.map_nil, List.mem_append] at ha
      rcases ha with ha | ha
      · have := jle a ha
        omega
      · simp at ha
        omega
    · intro a ha
      show a ≤ s.nextId + 1
      have := tle a ha
      omega
    · intro x hx
      show x ≤ s.nextId + 1
      rcases List.mem_append.mp hx with hx | hx
      · have := qle x hx
        omega
      · simp at hx
        omega
  | retry_dispatch id h hr =>
    have hidt : id ∉ s.tasks.map Prod.fst := failed_notask id h
    have hidq : id ∉ s.queue := fun hq => by
      have := key_unique jkeys (q_status id hq) h
      simp at this
    have hidj : id ∈ s.jobs.map Prod.fst := List.mem_map.mpr ⟨(id, JStatus.failed), h, rfl⟩
    refine ⟨?_, ?_, ?_, ?_, qkeys, ?_, ?_, ?_, ?_, ?_, ?_, qle⟩
    · show s.running + 1 ≤ (s.maxConcurrent : Int)
      omega
    · show s.running + 1 = ((slotCount (s.tasks ++ [(id, TPhase.starting)]) : Nat) : Int)
      rw [slotCount_append_start]
      push_cast
      omega
    · rw [keys_updK]
      exact jkeys
    · simp only [List.map_append, List.map_cons, List.map_nil]
      rw [List.nodup_append]
      exact ⟨tkeys, List.nodup_singleton _, by simp [hidt]⟩
    · intro a ha
      rcases mem_updK_elim ha with ⟨_, hab⟩ | ⟨ha2, hne⟩
      · simp at hab
      · exact List.mem_append_left _ (run_task a ha2)
    · intro x hx
      have hne : x ≠ id := fun hh => hidq (hh ▸ hx)
      exact mem_updK_of_ne _ (q_status x hx) hne
    · intro x hx hc
      simp only [List.map_append, List.map_cons, List.map_nil, List.mem_append] at hc
      rcases hc with hc | hc
      · exact q_notask x hx hc
      · simp at hc
        exact hidq (hc ▸ hx)
    · intro a ha hc
      rcases mem_updK_elim ha with ⟨_, hab⟩ | ⟨ha2, hne⟩
      · simp at hab
      · simp only [List.map_append, List.map_cons, List.map_nil, List.mem_append] at hc
        rcases hc with hc | hc
        · exact failed_notask a ha2 hc
        · simp at hc
          exact hne hc
    · intro a ha
      rw [keys_updK] at ha
      exact jle a ha
    · intro a ha
      simp only [List.map_append, List.map_cons, List.map_nil, List.mem_append] at ha
      rcases ha with ha | ha
      · exact tle a ha
      · simp at ha
        exact ha ▸ jle id hidj
  | retry_queue id h hr =>
    have hidt : id ∉ s.tasks.map Prod.fst := failed_notask id h
    have hidq : id ∉ s.queue := fun hq => by
      have := key_unique jkeys (q_status id hq) h
      simp at this
    have hidj : id ∈ s.jobs.map Prod.fst := List.mem_map.mpr ⟨(id, JStatus.failed), h, rfl⟩
    refine ⟨run_le, run_eq, ?_, tkeys, ?_, ?_, ?_, ?_, ?_, ?_, tle, ?_⟩
    · rw [keys_updK]
      exact jkeys
    · rw [List.nodup_append]
      exact ⟨qkeys, List.nodup_singleton _, by simp [hidq]⟩
    · intro a ha
      rcases mem_updK_elim ha with ⟨_, hab⟩ | ⟨ha2, hne⟩
      · simp at hab
      · exact run_task a ha2
    · intro x hx
      rcases List.mem_append.mp hx with hx | hx
      · have hne : x ≠ id := fun hh => hidq (hh ▸ hx)
        exact mem_updK_of_ne _ (q_status x hx) hne
      · simp at hx
        subst hx
        exact mem_updK_self JStatus.queued h
    · intro x hx hc
      rcases List.mem_append.mp hx with hx | hx
      · exact q_notask x hx hc
      · simp at hx
        subst hx
        exact hidt hc
    · intro a ha hc
      rcases mem_updK_elim ha with ⟨_, hab⟩ | ⟨ha2, hne⟩
      · simp at hab
      · exact failed_notask a ha2 hc
    · intro a ha
      rw [keys_updK] at ha
      exact jle a ha
    · intro x hx
      rcases List.mem_append.mp hx with hx | hx
      · exact qle x hx
      · simp at hx
        exact hx ▸ jle id hidj
  | task_start id ht hj =>
    have hidn : id ∈ s.tasks.map Prod.fst := List.mem_map.mpr ⟨(id, TPhase.starting), ht, rfl⟩
    refine ⟨run_le, ?_, ?_, ?_, qkeys, ?_, ?_, ?_, ?_, ?_, ?_, qle⟩
    · show s.running = ((slotCount (updK id TPhase.executing s.tasks) : Nat) : Int)
      have h1 := slotCount_updK s.tasks id TPhase.starting TPhase.executing tkeys ht
      simp [holdsSlot] at h1
      omega
    · rw [keys_updK]
      exact jkeys
    · rw [keys_updK]
      exact tkeys
    · intro a ha
      rcases mem_updK_elim ha with ⟨hak, _⟩ | ⟨ha2, hne⟩
      · subst hak
        exact mem_updK_self TPhase.executing ht
      · exact mem_updK_of_ne _ (run_task a ha2) hne
    · intro x hx
      have hne : x ≠ id := fun hh => q_notask x hx (hh ▸ hidn)
      exact mem_updK_of_ne _ (q_status x hx) hne
    · intro x hx hc
      rw [keys_updK] at hc
      exact q_notask x hx hc
    · intro a ha hc
      rcases mem_updK_elim ha with ⟨_, hab⟩ | ⟨ha2, hne⟩
      · simp at hab
      · rw [keys_updK] at hc
        exact failed_notask a ha2 hc
    · intro a ha
      rw [keys_updK] at ha
      exact jle a ha
    · intro a ha
      rw [keys_updK] at ha
      exact tle a ha
  | task_gone_start id ht hj =>
    have hnj : id ∉ s.jobs.map Prod.fst := hasK_false hj
    apply invS_startNextQueued
    · exact run_le
    · show s.running = ((slotCount (delK id s.tasks) : Nat) : Int) + 1
      have h1 := slotCount_delK s.tasks id TPhase.starting tkeys ht
      simp [holdsSlot] at h1
      omega
    · exact jkeys
    · exact nodup_keys_delK tkeys
    · exact qkeys
    · intro a ha
      have hne : a ≠ id := fun hh =>
        hnj (hh ▸ List.mem_map.mpr ⟨(a, JStatus.running), ha, rfl⟩)
      exact mem_delK.mpr ⟨run_task a ha, hne⟩
    · exact q_status
    · intro x hx hc
      exact q_notask x hx (keys_delK_sub hc).1
    · intro a ha hc
      exact failed_notask a ha (keys_delK_sub hc).1
    · exact jle
    · intro a ha
      exact tle a (keys_delK_sub ha).1
    · exact qle
  | task_complete id ht hj =>
    have hidn : id ∈ s.tasks.map Prod.fst := List.mem_map.mpr ⟨(id, TPhase.executing), ht, rfl⟩
    apply invS_startNextQueued
    · exact run_le
    · show s.running = ((slotCount (delK id s.tasks) : Nat) : Int) + 1
      have h1 := slotCount_delK s.tasks id TPhase.executing tkeys ht
      simp [holdsSlot] at h1
      omega
    · rw [keys_updK]
      exact jkeys
    · exact nodup_keys_delK tkeys
    · exact qkeys
    · intro a ha
      rcases mem_updK_elim ha with ⟨_, hab⟩ | ⟨ha2, hne⟩
      · simp at hab
      · exact mem_delK.mpr ⟨run_task a ha2, hne⟩
    · intro x hx
      have hne : x ≠ id := fun hh => q_notask x hx (hh ▸ hidn)
      exact mem_updK_of_ne _ (q_status x hx) hne
    · intro x hx hc
      exact q_notask x hx (keys_delK_sub hc).1
    · intro a ha hc
      rcases mem_updK_elim ha with ⟨_, hab⟩ | ⟨ha2, hne⟩
      · simp at hab
      · exact failed_notask a ha2 (keys_delK_sub hc).1
    · intro a ha
      rw [keys_updK] at ha
      exact jle a ha
    · intro a ha
      exact tle a (keys_delK_sub ha).1
    · exact qle
  | task_gone_exec id ht hj =>
    have hnj : id ∉ s.jobs.map Prod.fst := hasK_false hj
    apply invS_startNextQueued
    · exact run_le
    · show s.running = ((slotCount (delK id s.tasks) : Nat) : Int) + 1
      have h1 := slotCount_delK s.tasks id TPhase.executing tkeys ht
      simp [holdsSlot] at h1
      omega
    · exact jkeys
    · exact nodup_keys_delK tkeys
    · exact qkeys
    · intro a ha
      have hne : a ≠ id := fun hh =>
        hnj (hh ▸ List.mem_map.mpr ⟨(a, JStatus.running), ha, rfl⟩)
      exact mem_delK.mpr ⟨run_task a ha, hne⟩
    · exact q_status
    · intro x hx hc
      exact q_notask x hx (keys_delK_sub hc).1
    · intro a ha hc
      exact failed_notask a ha (keys_delK_sub hc).1
    · exact jle
    · intro a ha
      exact tle a (keys_delK_sub ha).1
    · exact qle
  | task_fail_final id ht hj =>
    have hidn : id ∈ s.tasks.map Prod.fst := List.mem_map.mpr ⟨(id, TPhase.executing), ht, rfl⟩
    apply invS_startNextQueued
    · exact run_le
    · show s.running = ((slotCount (delK id s.tasks) : Nat) : Int) + 1
      have h1 := slotCount_delK s.tasks id TPhase.executing tkeys ht
      simp [holdsSlot] at h1
      omega
    · rw [keys_updK]
      exact jkeys
    · exact nodup_keys_delK tkeys
    · exact qkeys
    · intro a ha
      rcases mem_updK_elim ha with ⟨_, hab⟩ | ⟨ha2, hne⟩
      · simp at hab
      · exact mem_delK.mpr ⟨run_task a ha2, hne⟩
    · intro x hx
      have hne : x ≠ id := fun hh => q_notask x hx (hh ▸ hidn)
      exact mem_updK_of_ne _ (q_status x hx) hne
    · intro x hx hc
      exact q_notask x hx (keys_delK_sub hc).1
    · intro a ha hc
      rcases mem_updK_elim ha with ⟨hak, _⟩ | ⟨ha2, hne⟩
      · exact (keys_delK_sub hc).2 hak
      · exact failed_notask a ha2 (keys_delK_sub hc).1
    · intro a ha
      rw [keys_updK] at ha
      exact jle a ha
    · intro a ha
      exact tle a (keys_delK_sub ha).1
    · exact qle
  | task_fail_retry id ht hj =>
    have hidn : id ∈ s.tasks.map Prod.fst := List.mem_map.mpr ⟨(id, TPhase.executing), ht, rfl⟩
    apply invS_startNextQueued
    · exact run_le
    · show s.running = ((slotCount (updK id TPhase.backoff s.tasks) : Nat) : Int) + 1
      have h1 := slotCount_updK s.tasks id TPhase.executing TPhase.backoff tkeys ht
      simp [holdsSlot] at h1
      omega
    · rw [keys_updK]
      exact jkeys
    · rw [keys_updK]
      exact tkeys
    · exact qkeys
    · intro a ha
      rcases mem_updK_elim ha with ⟨_, hab⟩ | ⟨ha2, hne⟩
      · simp at hab
      · exact mem_updK_of_ne _ (run_task a ha2) hne
    · intro x hx
      have hne : x ≠ id := fun hh => q_notask x hx (hh ▸ hidn)
      exact mem_updK_of_ne _ (q_status x hx) hne
    · intro x hx hc
      rw [keys_updK] at hc
      exact q_notask x hx hc
    · intro a ha hc
      rcases mem_updK_elim ha with ⟨_, hab⟩ | ⟨ha2, hne⟩
      · simp at hab
      · rw [keys_updK] at hc
        exact failed_notask a ha2 hc
    · intro a ha
      rw [keys_updK] at ha
      exact jle a ha
    · intro a ha
      rw [keys_updK] at ha
      exact tle a ha
    · exact qle
  | backoff_acquire id ht hj hr =>
    refine ⟨?_, ?_, jkeys, ?_, qkeys, ?_, q_status, ?_, ?_, jle, ?_, qle⟩
    · show s.running + 1 ≤ (s.maxConcurrent : Int)
      omega
    · show s.running + 1 = ((slotCount (updK id TPhase.starting s.tasks) : Nat) : Int)
      have h1 := slotCount_updK s.tasks id TPhase.backoff TPhase.starting tkeys ht
      simp [holdsSlot] at h1
      omega
    · rw [keys_updK]
      exact tkeys
    · intro a ha
      have he := run_task a ha
      have hne : a ≠ id := by
        intro hh
        subst hh
        have := key_unique tkeys he ht
        simp at this
      exact mem_updK_of_ne _ he hne
    · intro x hx hc
      rw [keys_updK] at hc
      exact q_notask x hx hc
    · intro a ha hc
      rw [keys_updK] at hc
      exact failed_notask a ha hc
    · intro a ha
      rw [keys_updK] at ha
      exact tle a ha
  | backoff_queue id ht hj hr =>
    have hidn : id ∈ s.tasks.map Prod.fst := List.mem_map.mpr ⟨(id, TPhase.backoff), ht, rfl⟩
    have hidq : id ∉ s.queue := fun hq => q_notask id hq hidn
    refine ⟨run_le, ?_, ?_, ?_, ?_, ?_, ?_, ?_, ?_, ?_, ?_, ?_⟩
    · show s.running = ((slotCount (delK id s.tasks) : Nat) : Int)
      have h1 := slotCount_delK s.tasks id TPhase.backoff tkeys ht
      simp [holdsSlot] at h1
      omega
    · rw [keys_updK]
      exact jkeys
    · exact nodup_keys_delK tkeys
    · rw [List.nodup_append]
      exact ⟨qkeys, List.nodup_singleton _, by simp [hidq]⟩
    · intro a ha
      rcases mem_updK_elim ha with ⟨_, hab⟩ | ⟨ha2, hne⟩
      · simp at hab
      · exact mem_delK.mpr ⟨run_task a ha2, hne⟩
    · intro x hx
      rcases List.mem_append.mp hx with hx | hx
      · have hne : x ≠ id := fun hh => hidq (hh ▸ hx)
        exact mem_updK_of_ne _ (q_status x hx) hne
      · simp at hx
        subst hx
        obtain ⟨v, hv⟩ := hasK_exists hj
        exact mem_updK_self JStatus.queued hv
    · intro x hx hc
      rcases List.mem_append.mp hx with hx | hx
      · exact q_notask x hx (keys_delK_sub hc).1
      · simp at hx
        subst hx
        exact (keys_delK_sub hc).2 rfl
    · intro a ha hc
      rcases mem_updK_elim ha with ⟨_, hab⟩ | ⟨ha2, hne⟩
      · simp at hab
      · exact failed_notask a ha2 (keys_delK_sub hc).1
    · intro a ha
      rw [keys_updK] at ha
      exact jle a ha
    · intro a ha
      exact tle a (keys_delK_sub ha).1
    · intro x hx
      rcases List.mem_append.mp hx with hx | hx
      · exact qle x hx
      · simp at hx
        exact hx ▸ tle id hidn
  | backoff_gone id ht hj =>
    refine ⟨run_le, ?_, jkeys, ?_, qkeys, ?_, q_status, ?_, ?_, jle, ?_, qle⟩
    · show s.running = ((slotCount (delK id s.tasks) : Nat) : Int)
      have h1 := slotCount_delK s.tasks id TPhase.backoff tkeys ht
      simp [holdsSlot] at h1
      omega
    · exact nodup_keys_delK tkeys
    · intro a ha
      have he := run_task a ha
      have hne : a ≠ id := by
        intro hh
        subst hh
        have := key_unique tkeys he ht
        simp at this
      exact mem_delK.mpr ⟨he, hne⟩
    · intro x hx hc
      exact q_notask x hx (keys_delK_sub hc).1
    · intro a ha hc
      exact failed_notask a ha (keys_delK_sub hc).1
    · intro a ha
      exact tle a (keys_delK_sub ha).1
  | delete_job id h =>
    refine ⟨run_le, run_eq, ?_, tkeys, ?_, ?_, ?_, ?_, ?_, ?_, tle, ?_⟩
    · exact nodup_keys_delK jkeys
    · exact qkeys.erase id
    · intro a ha
      exact run_task a (mem_delK.mp ha).1
    · intro x hx
      have hx2 := (qkeys.mem_erase_iff.mp hx)
      exact mem_delK.mpr ⟨q_status x hx2.2, hx2.1⟩
    · intro x hx hc
      exact q_notask x (List.mem_of_mem_erase hx) hc
    · intro a ha hc
      exact failed_notask a (mem_delK.mp ha).1 hc
    · intro a ha
      exact jle a (keys_delK_sub ha).1
    · intro x hx
      exact qle x (List.mem_of_mem_erase hx)
  | delete_all h =>
    have hslot := h rfl
    refine ⟨?_, ?_, ?_, tkeys, ?_, ?_, ?_, ?_, ?_, ?_, tle, ?_⟩
    · show (0 : Int) ≤ (s.maxConcurrent : Int)
      omega
    · show (0 : Int) = ((slotCount s.tasks : Nat) : Int)
      omega
    · exact List.nodup_nil
    · exact List.nodup_nil
    · intro a ha
      simp at ha
    · intro x hx
      simp at hx
    · intro x hx
      simp at hx
    · intro a ha
      simp at ha
    · intro a ha
      simp at ha
    · intro x hx
      simp at hx

theorem invS_reach {mc : Nat} {s : SchedState} (h : SReach true mc s) : InvS s := by
  induction h with
  | refl => exact invS_init mc
  | tail _ hstep ih => exact invS_step ih hstep

/-- C1 (amended): at every reachable instant of the scheduler, under any
configuration, the number of jobs with status `running` is at most
`maxConcurrent` — across dispatch, backoff slot release and slot
re-acquisition (jobs in `retrying` hold no slot in the model) — provided
every `DeleteAllJobs` happens while no attempt is in flight.  The
unrestricted system violates the bound (see the counterexample). -/
theorem C1_running_bound_amended (mc : Nat) (s : SchedState) (h : SReach true mc s) :
    runningJobs s ≤ s.maxConcurrent :=
  runningJobs_le_of_inv s (invS_reach h)

/-- Witness for C1 (amended) at the initial state of a cap-1 scheduler. -/
theorem C1_running_bound_amended_w :
    runningJobs (initState 1) ≤ (initState 1).maxConcurrent :=
  C1_running_bound_amended 1 (initState 1) Relation.ReflTransGen.refl

/-- C1 as stated is false on the code: `DeleteAllJobs` resets `running` to 0
while an attempt is still in flight; when that attempt exits it decrements
the counter to −1, after which a cap-1 scheduler admits two jobs that are
simultaneously `running`. -/
theorem C1_running_bound_counterexample :
    ¬ ∀ (mc : Nat) (s : SchedState), SReach false mc s →
      runningJobs s ≤ s.maxConcurrent := by
  intro hclaim
  have t1 : Step false (initState 1)
      ⟨[(1, JStatus.pending)], [], 1, [(1, TPhase.starting)], 1, 1⟩ :=
    Step.submit_dispatch _ (by decide)
  have t2 : Step false ⟨[(1, JStatus.pending)], [], 1, [(1, TPhase.starting)], 1, 1⟩
      ⟨[(1, JStatus.running)], [], 1, [(1, TPhase.executing)], 1, 1⟩ :=
    Step.task_start _ 1 (by decide) (by decide)
  have t3 : Step false ⟨[(1, JStatus.running)], [], 1, [(1, TPhase.executing)], 1, 1⟩
      ⟨[], [], 0, [(1, TPhase.executing)], 1, 1⟩ :=
    Step.delete_all _ (fun hc => absurd hc (by decide))
  have t4 : Step false ⟨[], [], 0, [(1, TPhase.executing)], 1, 1⟩
      ⟨[], [], -1, [], 1, 1⟩ :=
    Step.task_gone_exec _ 1 (by decide) (by decide)
  have t5 : Step false ⟨[], [], -1, [], 1, 1⟩
      ⟨[(2, JStatus.pending)], [], 0, [(2, TPhase.starting)], 2, 1⟩ :=
    Step.submit_dispatch _ (by decide)
  have t6 : Step false ⟨[(2, JStatus.pending)], [], 0, [(2, TPhase.starting)], 2, 1⟩
      ⟨[(2, JStatus.running)], [], 0, [(2, TPhase.executing)], 2, 1⟩ :=
    Step.task_start _ 2 (by decide) (by decide)
  have t7 : Step false ⟨[(2, JStatus.running)], [], 0, [(2, TPhase.executing)], 2, 1⟩
      ⟨[(2, JStatus.running), (3, JStatus.pending)], [], 1,
        [(2, TPhase.executing), (3, TPhase.starting)], 3, 1⟩ :=
    Step.submit_dispatch _ (by decide)
  have t8 : Step false
      ⟨[(2, JStatus.running), (3, JStatus.pending)], [], 1,
        [(2, TPhase.executing), (3, TPhase.starting)], 3, 1⟩
      ⟨[(2, JStatus.running), (3, JStatus.running)], [], 1,
        [(2, TPhase.executing), (3, TPhase.executing)], 3, 1⟩ :=
    Step.task_start _ 3 (by decide) (by decide)
  have hreach : SReach false 1
      ⟨[(2, JStatus.running), (3, JStatus.running)], [], 1,
        [(2, TPhase.executing), (3, TPhase.executing)], 3, 1⟩ :=
    Relation.ReflTransGen.tail (Relation.ReflTransGen.tail (Relation.ReflTransGen.tail
      (Relation.ReflTransGen.tail (Relation.ReflTransGen.tail (Relation.ReflTransGen.tail
        (Relation.ReflTransGen.tail (Relation.ReflTransGen.tail Relation.ReflTransGen.refl
          t1) t2) t3) t4) t5) t6) t7) t8
  exact absurd (hclaim 1 _ hreach) (by decide)

/-- Witness for C4: a mixed persisted state with one running and one
completed job. -/
theorem C4_requeue_law_w :
    ∃ r ∈ (loadState
        { nextId := 2,
          jobs := [{ id := "1", url := "u1", status := JStatus.completed, createdAt := 5,
                     doneAt := some 9, error := "", progress := 100, retryCount := 0,
                     maxRetries := 3, output := [] },
                   { id := "2", url := "u2", status := JStatus.running, createdAt := 7,
                     doneAt := none, error := "", progress := 0, retryCount := 1,
                     maxRetries := 3, output := [] }] }).jobs,
      r.id = "2" ∧ r.status = JStatus.queued ∧ r.progress = 0 :=
  (C4_requeue_law _).1
    { id := "2", url := "u2", status := JStatus.running, createdAt := 7,
      doneAt := none, error := "", progress := 0, retryCount := 1,
      maxRetries := 3, output := [] }
    (List.mem_cons_of_mem _ (List.mem_singleton.mpr rfl)) rfl

end YtdlpNfo
